import Mathlib

/-!
Verification of the chefkoch planning core against a shallow embedding of
`src/chefkoch/recipe.py`, `src/chefkoch/container.py` and
`src/chefkoch/scheduler.py`.

Graphs are embedded as explicit node/edge lists mirroring the external
`graph.Graph` objects that `recipe.py` manipulates: `nodes(to_node=v)` and
`nodes(from_node=v)` are predecessor/successor queries, `nodes(out_degree=0)`
are the sinks, node identifiers are unique and edges reference existing
nodes (invariants of the graph library recorded as hypotheses).
-/

namespace Chefkoch

/-- Directed graph of string-named nodes with an explicit edge list,
embedding the `graph.Graph` values used by `recipe.py`. -/
structure DiGraph where
  nodes : List String
  edges : List (String × String)
deriving DecidableEq

/-- Embeds `g.nodes(to_node=v)`: every node with an edge into `v`. -/
def nodesTo (g : DiGraph) (v : String) : List String :=
  g.nodes.filter (fun u => decide ((u, v) ∈ g.edges))

/-- Embeds `g.nodes(from_node=v)`: every node that `v` has an edge to. -/
def nodesFrom (g : DiGraph) (v : String) : List String :=
  g.nodes.filter (fun w => decide ((v, w) ∈ g.edges))

/-- Out-degree-0 test for a node. -/
def isSink (g : DiGraph) (v : String) : Bool := (nodesFrom g v).isEmpty

/-- Embeds `g.nodes(out_degree=0)`. -/
def sinkNodes (g : DiGraph) : List String := g.nodes.filter (fun v => isSink g v)

/-- Edge endpoints are nodes of the graph (graph-library invariant). -/
def Wellformed (g : DiGraph) : Prop :=
  ∀ e ∈ g.edges, e.1 ∈ g.nodes ∧ e.2 ∈ g.nodes

/-- Directed walk: `Walk g v w l` states that `l` is the full node list of a
walk from `v` to `w` along edges of `g`. -/
inductive Walk (g : DiGraph) : String → String → List String → Prop
  | nil (v : String) : v ∈ g.nodes → Walk g v v [v]
  | cons {u x w : String} {l : List String} :
      u ∈ g.nodes → (u, x) ∈ g.edges → Walk g x w l → Walk g u w (u :: l)

/-- Acyclicity: no edge closes a walk back to its own source. -/
def Acyclic (g : DiGraph) : Prop :=
  ∀ v x l, (v, x) ∈ g.edges → Walk g x v l → False

/-- `SinkPath g v p` states that some directed path of length `p` (counted in
edges) leads from `v` to an out-degree-0 node. -/
def SinkPath (g : DiGraph) (v : String) (p : Nat) : Prop :=
  ∃ w l, Walk g v w l ∧ isSink g w = true ∧ l.length = p + 1

/-- Embeds the priority update performed by the `if/elif` at the top of the
`node is not None` branch of `Plan.assertPriority`: overwrite a smaller
stored priority, store the priority when the node is unseen, keep a larger
stored priority. -/
def updPriority (m : String → Option Int) (node : String) (p : Int) :
    String → Option Int :=
  fun w =>
    if w = node then
      match m node with
      | some q => if q < p then some p else some q
      | none => some p
    else m w

/-- Embeds the recursive branch of `Plan.assertPriority` (`node` given):
update the node's priority, then recurse into every predecessor with
priority `p + 1`.  `fuel` bounds the recursion depth; the Python recursion
terminates on acyclic graphs, and the lemmas below only use the definition
with fuel large enough that the cutoff is never reached. -/
def assertPriorityAux (g : DiGraph) :
    Nat → (String → Option Int) → String → Int → (String → Option Int)
  | 0, m, _, _ => m
  | fuel + 1, m, node, p =>
      (nodesTo g node).foldl (fun m2 c => assertPriorityAux g fuel m2 c (p + 1))
        (updPriority m node p)

/-- Embeds `Plan.assertPriority()` called with no arguments (`node = None`,
`priority = -1`): every sink is processed with priority `-1 + 1`, starting
from an empty priority dictionary. -/
def assertPriority (g : DiGraph) : String → Option Int :=
  (sinkNodes g).foldl
    (fun m s => assertPriorityAux g g.nodes.length m s (-1 + 1)) (fun _ => none)

/-- Pointwise growth of priority maps: every stored priority stays stored
and never decreases. -/
def MapLe (m m2 : String → Option Int) : Prop :=
  ∀ w q, m w = some q → ∃ r, m2 w = some r ∧ q ≤ r

/-- The map stores at least `x` at `w`. -/
def MapGe (m : String → Option Int) (w : String) (x : Int) : Prop :=
  ∃ q, m w = some q ∧ x ≤ q

theorem mapLe_refl (m : String → Option Int) : MapLe m m :=
  fun _ q h => ⟨q, h, le_refl q⟩

theorem mapLe_trans {m1 m2 m3 : String → Option Int}
    (h12 : MapLe m1 m2) (h23 : MapLe m2 m3) : MapLe m1 m3 := by
  intro w q h
  obtain ⟨r, hr, hqr⟩ := h12 w q h
  obtain ⟨s, hs, hrs⟩ := h23 w r hr
  exact ⟨s, hs, le_trans hqr hrs⟩

theorem mapGe_of_mapLe {m m2 : String → Option Int} {w : String} {x : Int}
    (h : MapGe m w x) (hle : MapLe m m2) : MapGe m2 w x := by
  obtain ⟨q, hq, hxq⟩ := h
  obtain ⟨r, hr, hqr⟩ := hle w q hq
  exact ⟨r, hr, le_trans hxq hqr⟩

theorem mapGe_mono {m : String → Option Int} {w : String} {x y : Int}
    (h : MapGe m w x) (hyx : y ≤ x) : MapGe m w y := by
  obtain ⟨q, hq, hxq⟩ := h
  exact ⟨q, hq, le_trans hyx hxq⟩

theorem updPriority_mapLe (m : String → Option Int) (v : String) (p : Int) :
    MapLe m (updPriority m v p) := by
  intro w q h
  by_cases hw : w = v
  · subst hw
    by_cases hqp : q < p
    · exact ⟨p, by simp [updPriority, h, hqp], le_of_lt hqp⟩
    · exact ⟨q, by simp [updPriority, h, hqp], le_refl q⟩
  · exact ⟨q, by simp [updPriority, hw, h], le_refl q⟩

theorem updPriority_self_ge (m : String → Option Int) (v : String) (p : Int) :
    MapGe (updPriority m v p) v p := by
  cases hm : m v with
  | none => exact ⟨p, by simp [updPriority, hm], le_refl p⟩
  | some q =>
      by_cases hqp : q < p
      · exact ⟨p, by simp [updPriority, hm, hqp], le_refl p⟩
      · exact ⟨q, by simp [updPriority, hm, hqp], le_of_not_lt hqp⟩

theorem foldl_mapLe {f : (String → Option Int) → String → (String → Option Int)}
    (hf : ∀ m c, MapLe m (f m c)) :
    ∀ (l : List String) (m : String → Option Int), MapLe m (l.foldl f m) := by
  intro l
  induction l with
  | nil => intro m; exact mapLe_refl m
  | cons c r ih =>
      intro m
      exact mapLe_trans (hf m c) (ih (f m c))

theorem foldl_mapGe_of_mem
    {f : (String → Option Int) → String → (String → Option Int)}
    (hf : ∀ m c, MapLe m (f m c)) {u : String} {w : String} {x : Int}
    (hstep : ∀ m, MapGe (f m u) w x) :
    ∀ (l : List String), u ∈ l →
      ∀ (m : String → Option Int), MapGe (l.foldl f m) w x := by
  intro l
  induction l with
  | nil => intro hu; exact absurd hu (List.not_mem_nil u)
  | cons c r ih =>
      intro hu m
      rcases List.mem_cons.mp hu with hcu | hur
      · subst hcu
        simp only [List.foldl_cons]
        exact mapGe_of_mapLe (hstep m) (foldl_mapLe hf r _)
      · simp only [List.foldl_cons]
        exact ih hur _

theorem assertPriorityAux_mapLe (g : DiGraph) :
    ∀ (fuel : Nat) (m : String → Option Int) (v : String) (p : Int),
      MapLe m (assertPriorityAux g fuel m v p) := by
  intro fuel
  induction fuel with
  | zero => intro m v p; exact mapLe_refl m
  | succ f ih =>
      intro m v p
      unfold assertPriorityAux
      exact mapLe_trans (updPriority_mapLe m v p)
        (foldl_mapLe (fun m2 c => ih m2 c (p + 1)) (nodesTo g v) _)

theorem assertPriorityAux_self_ge (g : DiGraph) (f : Nat)
    (m : String → Option Int) (v : String) (p : Int) :
    MapGe (assertPriorityAux g (f + 1) m v p) v p := by
  unfold assertPriorityAux
  exact mapGe_of_mapLe (updPriority_self_ge m v p)
    (foldl_mapLe (fun m2 c => assertPriorityAux_mapLe g f m2 c (p + 1))
      (nodesTo g v) _)

theorem walk_end_mem {g : DiGraph} {a b : String} {l : List String}
    (h : Walk g a b l) : b ∈ g.nodes := by
  induction h with
  | nil v hv => exact hv
  | cons hu he hw ih => exact ih

theorem walk_start_mem {g : DiGraph} {a b : String} {l : List String}
    (h : Walk g a b l) : a ∈ g.nodes := by
  cases h with
  | nil v hv => exact hv
  | cons hu he hw => exact hu

theorem walk_subset {g : DiGraph} {a b : String} {l : List String}
    (h : Walk g a b l) : ∀ x ∈ l, x ∈ g.nodes := by
  induction h with
  | nil v hv => intro x hx; rw [List.mem_singleton.mp hx]; exact hv
  | cons hu he hw ih =>
      intro x hx
      rcases List.mem_cons.mp hx with hxu | hxl
      · rw [hxu]; exact hu
      · exact ih x hxl

theorem walk_length_pos {g : DiGraph} {a b : String} {l : List String}
    (h : Walk g a b l) : 0 < l.length := by
  cases h with
  | nil v hv => simp
  | cons hu he hw => simp

theorem walk_length_one {g : DiGraph} {a b : String} {l : List String}
    (h : Walk g a b l) (hl : l.length = 1) : a = b ∧ l = [a] := by
  cases h with
  | nil v hv => exact ⟨rfl, rfl⟩
  | cons hu he hw =>
      exfalso
      have hpos := walk_length_pos hw
      simp only [List.length_cons] at hl
      omega

theorem walk_to_mem {g : DiGraph} {a b u : String} {l : List String}
    (h : Walk g a b l) (hu : u ∈ l) : ∃ l2, Walk g a u l2 := by
  induction h with
  | nil v hv =>
      rw [List.mem_singleton.mp hu]
      exact ⟨[v], Walk.nil v hv⟩
  | @cons u0 x w l0 hu0 he hw ih =>
      rcases List.mem_cons.mp hu with hx | hxl
      · subst hx
        exact ⟨[u], Walk.nil u hu0⟩
      · obtain ⟨l2, hl2⟩ := ih hxl
        exact ⟨u0 :: l2, Walk.cons hu0 he hl2⟩

theorem walk_nodup {g : DiGraph} (hac : Acyclic g) {a b : String}
    {l : List String} (h : Walk g a b l) : l.Nodup := by
  induction h with
  | nil v hv => simp
  | @cons u x w l0 hu he hw ih =>
      refine List.nodup_cons.mpr ⟨?_, ih⟩
      intro hmem
      obtain ⟨l2, hl2⟩ := walk_to_mem hw hmem
      exact hac u x l2 he hl2

theorem walk_length_le {g : DiGraph} (hac : Acyclic g) {a b : String}
    {l : List String} (h : Walk g a b l) : l.length ≤ g.nodes.length :=
  List.Subperm.length_le ((walk_nodup hac h).subperm (walk_subset h))

theorem walk_snoc {g : DiGraph} {a b : String} {l : List String}
    (h : Walk g a b l) :
    ∀ d : Nat, l.length = d + 2 →
      ∃ t l2, Walk g a t l2 ∧ (t, b) ∈ g.edges ∧ l = l2 ++ [b] ∧
        l2.length = d + 1 := by
  induction h with
  | nil v hv => intro d hd; simp at hd
  | @cons u x w l0 hu he hw ih =>
      intro d hd
      simp only [List.length_cons] at hd
      by_cases hone : l0.length = 1
      · obtain ⟨hxw, hl0⟩ := walk_length_one hw hone
        subst hxw
        refine ⟨u, [u], Walk.nil u hu, he, ?_, ?_⟩
        · simp [hl0]
        · simp only [List.length_singleton]; omega
      · have hpos := walk_length_pos hw
        obtain ⟨d0, hd0⟩ : ∃ d0, l0.length = d0 + 2 := by
          refine ⟨l0.length - 2, ?_⟩; omega
        obtain ⟨t, l2, hwt, hte, hl, hlen⟩ := ih d0 hd0
        refine ⟨t, u :: l2, Walk.cons hu he hwt, hte, ?_, ?_⟩
        · rw [List.cons_append, hl]
        · simp only [List.length_cons]; omega

theorem walk_append_edge {g : DiGraph} {a b x : String} {l : List String}
    (h : Walk g a b l) (he : (b, x) ∈ g.edges) (hx : x ∈ g.nodes) :
    Walk g a x (l ++ [x]) := by
  induction h with
  | nil v hv => exact Walk.cons hv he (Walk.nil x hx)
  | cons hu he0 hw ih => exact Walk.cons hu he0 (ih he)

theorem assertPriorityAux_lower (g : DiGraph) :
    ∀ (fuel d : Nat) (m : String → Option Int) (v : String) (p : Int)
      (w : String) (l : List String), Walk g w v l → l.length = d + 1 →
      d + 1 ≤ fuel → MapGe (assertPriorityAux g fuel m v p) w (p + (d : Int)) := by
  intro fuel
  induction fuel with
  | zero => intro d m v p w l hwalk hlen hle; omega
  | succ f ih =>
      intro d m v p w l hwalk hlen hle
      cases d with
      | zero =>
          obtain ⟨hwv, -⟩ := walk_length_one hwalk hlen
          subst hwv
          have := assertPriorityAux_self_ge g f m w p
          simpa using this
      | succ d0 =>
          obtain ⟨t, l2, hw2, hedge, hl, hl2len⟩ := walk_snoc hwalk d0 (by omega)
          have ht : t ∈ nodesTo g v :=
            List.mem_filter.mpr ⟨walk_end_mem hw2, decide_eq_true hedge⟩
          show MapGe ((nodesTo g v).foldl
            (fun m2 c => assertPriorityAux g f m2 c (p + 1))
            (updPriority m v p)) w (p + ((d0 : Int) + 1))
          refine foldl_mapGe_of_mem
            (fun m2 c => assertPriorityAux_mapLe g f m2 c (p + 1)) ?_
            (nodesTo g v) ht _
          intro m0
          have hstep := ih d0 m0 t (p + 1) w l2 hw2 hl2len (by omega)
          exact mapGe_mono hstep (by omega)

/-- Every priority stored in the map is realized by an actual path down to a
sink of that exact length. -/
def ValidMap (g : DiGraph) (m : String → Option Int) : Prop :=
  ∀ w q, m w = some q → ∃ n : Nat, q = (n : Int) ∧ SinkPath g w n

theorem updPriority_valid {g : DiGraph} {m : String → Option Int}
    {v : String} {p : Int} (hm : ValidMap g m)
    (hp : ∃ n : Nat, p = (n : Int) ∧ SinkPath g v n) :
    ValidMap g (updPriority m v p) := by
  intro w q hq
  by_cases hw : w = v
  · subst hw
    cases hmv : m w with
    | none =>
        simp [updPriority, hmv] at hq
        subst hq
        exact hp
    | some q0 =>
        by_cases hq0p : q0 < p
        · simp [updPriority, hmv, hq0p] at hq
          subst hq
          exact hp
        · simp [updPriority, hmv, hq0p] at hq
          subst hq
          exact hm w q0 hmv
  · simp [updPriority, hw] at hq
    exact hm w q hq

theorem foldl_pres {P : (String → Option Int) → Prop}
    {f : (String → Option Int) → String → (String → Option Int)} :
    ∀ (l : List String), (∀ m c, c ∈ l → P m → P (f m c)) →
      ∀ m, P m → P (l.foldl f m) := by
  intro l
  induction l with
  | nil => intro _ m hm; exact hm
  | cons c r ih =>
      intro hstep m hm
      simp only [List.foldl_cons]
      exact ih (fun m2 c2 hc2 => hstep m2 c2 (List.mem_cons_of_mem c hc2))
        (f m c) (hstep m c (List.mem_cons_self c r) hm)

theorem sinkPath_cons {g : DiGraph} {u v : String} {n : Nat}
    (hu : u ∈ g.nodes) (he : (u, v) ∈ g.edges) (hp : SinkPath g v n) :
    SinkPath g u (n + 1) := by
  obtain ⟨w, l, hwalk, hsink, hlen⟩ := hp
  exact ⟨w, u :: l, Walk.cons hu he hwalk, hsink, by simp [hlen]⟩

theorem assertPriorityAux_valid (g : DiGraph) :
    ∀ (fuel : Nat) (m : String → Option Int) (v : String) (p : Int),
      ValidMap g m → (∃ n : Nat, p = (n : Int) ∧ SinkPath g v n) →
      ValidMap g (assertPriorityAux g fuel m v p) := by
  intro fuel
  induction fuel with
  | zero => intro m v p hm _; exact hm
  | succ f ih =>
      intro m v p hm hp
      unfold assertPriorityAux
      refine foldl_pres (nodesTo g v) ?_ _ (updPriority_valid hm hp)
      intro m2 c hc hm2
      obtain ⟨n, hpn, hsp⟩ := hp
      have hcmem := List.mem_filter.mp hc
      have hedge : (c, v) ∈ g.edges := of_decide_eq_true hcmem.2
      refine ih m2 c (p + 1) hm2 ⟨n + 1, ?_, sinkPath_cons hcmem.1 hedge hsp⟩
      rw [hpn]; norm_cast

theorem not_sink_extend {g : DiGraph} {a b : String} {l : List String}
    (hw : Walk g a b l) (hs : ¬ isSink g b = true) :
    ∃ x, Walk g a x (l ++ [x]) := by
  have hne : nodesFrom g b ≠ [] := by
    intro hnil
    exact hs (by simp [isSink, hnil])
  obtain ⟨x, hx⟩ := List.exists_mem_of_ne_nil _ hne
  have hmem := List.mem_filter.mp hx
  exact ⟨x, walk_append_edge hw (of_decide_eq_true hmem.2) hmem.1⟩

theorem exists_sinkPath_aux (g : DiGraph) (hac : Acyclic g) :
    ∀ (k : Nat) (l : List String) (a b : String), Walk g a b l →
      g.nodes.length ≤ l.length + k → ∃ p, SinkPath g a p := by
  intro k
  induction k with
  | zero =>
      intro l a b hw hle
      by_cases hs : isSink g b = true
      · exact ⟨l.length - 1, b, l, hw, hs, by have := walk_length_pos hw; omega⟩
      · exfalso
        obtain ⟨x, hw2⟩ := not_sink_extend hw hs
        have := walk_length_le hac hw2
        simp only [List.length_append, List.length_singleton] at this
        omega
  | succ k ih =>
      intro l a b hw hle
      by_cases hs : isSink g b = true
      · exact ⟨l.length - 1, b, l, hw, hs, by have := walk_length_pos hw; omega⟩
      · obtain ⟨x, hw2⟩ := not_sink_extend hw hs
        refine ih (l ++ [x]) a x hw2 ?_
        simp only [List.length_append, List.length_singleton]
        omega

theorem exists_sinkPath (g : DiGraph) (hac : Acyclic g) {v : String}
    (hv : v ∈ g.nodes) : ∃ p, SinkPath g v p :=
  exists_sinkPath_aux g hac g.nodes.length [v] v v (Walk.nil v hv)
    (by simp only [List.length_singleton]; omega)

theorem assertPriority_validMap (g : DiGraph) : ValidMap g (assertPriority g) := by
  unfold assertPriority
  refine foldl_pres (sinkNodes g) ?_ _ (fun w q h => by simp at h)
  intro m s hs hm
  have hsm := List.mem_filter.mp hs
  exact assertPriorityAux_valid g _ m s (-1 + 1) hm
    ⟨0, by norm_num, s, [s], Walk.nil s hsm.1, hsm.2, rfl⟩

theorem assertPriority_lower (g : DiGraph) (hac : Acyclic g) {v : String}
    {p : Nat} (hp : SinkPath g v p) : MapGe (assertPriority g) v (p : Int) := by
  obtain ⟨w, l, hwalk, hsink, hlen⟩ := hp
  have hwmem : w ∈ sinkNodes g := List.mem_filter.mpr ⟨walk_end_mem hwalk, hsink⟩
  have hbound : p + 1 ≤ g.nodes.length := by
    have := walk_length_le hac hwalk
    omega
  unfold assertPriority
  have hstep : ∀ m0, MapGe (assertPriorityAux g g.nodes.length m0 w (-1 + 1)) v
      ((-1 + 1) + (p : Int)) :=
    fun m0 => assertPriorityAux_lower g g.nodes.length p m0 w (-1 + 1) v l
      hwalk hlen hbound
  exact mapGe_mono (foldl_mapGe_of_mem
    (fun m s => assertPriorityAux_mapLe g _ m s (-1 + 1)) hstep
    (sinkNodes g) hwmem _) (by omega)

theorem sinkPath_sink_zero {g : DiGraph} (hwf : Wellformed g) {v : String}
    {n : Nat} (hs : isSink g v = true) (hp : SinkPath g v n) : n = 0 := by
  obtain ⟨w, l, hwalk, hsink, hlen⟩ := hp
  cases hwalk with
  | nil _ hv => simp only [List.length_singleton] at hlen; omega
  | @cons u x w0 l0 hu he hw =>
      exfalso
      have hx : x ∈ g.nodes := (hwf _ he).2
      have hmem : x ∈ nodesFrom g v := List.mem_filter.mpr ⟨hx, decide_eq_true he⟩
      rw [isSink, List.isEmpty_iff] at hs
      rw [hs] at hmem
      exact absurd hmem (List.not_mem_nil x)

/-- Claim C1: on an acyclic collapsed graph, `Plan.assertPriority()` called
with no arguments assigns priority `0` to every out-degree-0 step, assigns
every other step the length of the longest path from it to an out-degree-0
step, all assigned priorities are non-negative, and priorities grow
strictly along every upstream edge: if `(u, v)` is an edge then the
priority of `u` is at least the priority of `v` plus one (the maximum being
taken over all paths). -/
theorem assertPriority_correct (g : DiGraph) (hwf : Wellformed g)
    (hac : Acyclic g) :
    (∀ v ∈ g.nodes, isSink g v = true → assertPriority g v = some 0) ∧
    (∀ v ∈ g.nodes, ∃ p : Nat, assertPriority g v = some (p : Int) ∧
       SinkPath g v p ∧ ∀ q : Nat, SinkPath g v q → q ≤ p) ∧
    (∀ v q, assertPriority g v = some q → 0 ≤ q) ∧
    (∀ u v, (u, v) ∈ g.edges → ∀ qv, assertPriority g v = some qv →
       ∃ qu, assertPriority g u = some qu ∧ qv + 1 ≤ qu) := by
  have hchar : ∀ v ∈ g.nodes, ∃ p : Nat, assertPriority g v = some (p : Int) ∧
      SinkPath g v p ∧ ∀ q : Nat, SinkPath g v q → q ≤ p := by
    intro v hv
    obtain ⟨p0, hp0⟩ := exists_sinkPath g hac hv
    obtain ⟨q, hq, -⟩ := assertPriority_lower g hac hp0
    obtain ⟨n, hqn, hspn⟩ := assertPriority_validMap g v q hq
    subst hqn
    refine ⟨n, hq, hspn, ?_⟩
    intro q2 hq2
    obtain ⟨q3, hq3, hge3⟩ := assertPriority_lower g hac hq2
    rw [hq] at hq3
    have hq3n : (n : Int) = q3 := by injection hq3
    rw [← hq3n] at hge3
    exact_mod_cast hge3
  refine ⟨?_, hchar, ?_, ?_⟩
  · intro v hv hs
    obtain ⟨n, hmap, hsp, -⟩ := hchar v hv
    have hn0 : n = 0 := sinkPath_sink_zero hwf hs hsp
    rw [hn0] at hmap
    simpa using hmap
  · intro v q hq
    obtain ⟨n, hqn, -⟩ := assertPriority_validMap g v q hq
    rw [hqn]
    exact Int.natCast_nonneg n
  · intro u v he qv hqv
    have hv : v ∈ g.nodes := (hwf _ he).2
    have hu : u ∈ g.nodes := (hwf _ he).1
    obtain ⟨nv, hmv, hspv, -⟩ := hchar v hv
    obtain ⟨nu, hmu, -, hmaxu⟩ := hchar u hu
    have hqvnv : qv = (nv : Int) := by rw [hqv] at hmv; injection hmv
    have hle := hmaxu (nv + 1) (sinkPath_cons hu he hspv)
    exact ⟨(nu : Int), hmu, by omega⟩

theorem walk_rank_le {g : DiGraph} {rank : String → Nat}
    (hr : ∀ e ∈ g.edges, rank e.1 < rank e.2) {a b : String} {l : List String}
    (h : Walk g a b l) : rank a ≤ rank b := by
  induction h with
  | nil v hv => exact le_refl _
  | @cons u x w l0 hu he hw ih => exact le_trans (le_of_lt (hr (u, x) he)) ih

/-- A monotone rank function certifies acyclicity. -/
theorem acyclic_of_rank (g : DiGraph) (rank : String → Nat)
    (hr : ∀ e ∈ g.edges, rank e.1 < rank e.2) : Acyclic g := by
  intro v x l he hw
  have h1 : rank v < rank x := hr (v, x) he
  have h2 : rank x ≤ rank v := walk_rank_le hr hw
  omega

/-- Concrete two-step collapsed graph `B → A` used as the C1 witness input. -/
def gC1 : DiGraph := ⟨["A", "B"], [("B", "A")]⟩

/-- Witness for C1: the hypotheses of `assertPriority_correct` hold for the
concrete acyclic graph `gC1` and the theorem applies to it. -/
theorem assertPriority_correct_witness :
    Wellformed gC1 ∧ Acyclic gC1 ∧
      ((∀ v ∈ gC1.nodes, isSink gC1 v = true → assertPriority gC1 v = some 0) ∧
       (∀ v ∈ gC1.nodes, ∃ p : Nat, assertPriority gC1 v = some (p : Int) ∧
          SinkPath gC1 v p ∧ ∀ q : Nat, SinkPath gC1 v q → q ≤ p) ∧
       (∀ v q, assertPriority gC1 v = some q → 0 ≤ q) ∧
       (∀ u v, (u, v) ∈ gC1.edges → ∀ qv, assertPriority gC1 v = some qv →
          ∃ qu, assertPriority gC1 u = some qu ∧ qv + 1 ≤ qu)) := by
  have hwf : Wellformed gC1 := by unfold Wellformed; decide
  have hac : Acyclic gC1 :=
    acyclic_of_rank gC1 (fun s => if s = "B" then 0 else 1) (by decide)
  exact ⟨hwf, hac, assertPriority_correct gC1 hwf hac⟩

/-- Embeds `Plan.isItemNode`: checks the `"item."` name prefix
(`node[0:5] == "item."`). -/
def isItemNode (v : String) : Bool := v.take 5 == "item."

/-- Node insertion as performed implicitly by the graph library when an
edge endpoint is not yet present. -/
def addNodeIfAbsent (g : DiGraph) (v : String) : DiGraph :=
  if v ∈ g.nodes then g else { g with nodes := g.nodes ++ [v] }

/-- Raw edge insertion with set semantics (re-adding an existing edge is a
no-op, as in the graph library's edge dictionary). -/
def appendEdge (g : DiGraph) (x y : String) : DiGraph :=
  if (x, y) ∈ g.edges then g else { g with edges := g.edges ++ [(x, y)] }

/-- Embeds `g.add_edge(x, y)`: ensures both endpoints exist, then stores
the edge. -/
def addEdge (g : DiGraph) (x y : String) : DiGraph :=
  appendEdge (addNodeIfAbsent (addNodeIfAbsent g x) y) x y

/-- Embeds `g.del_node(v)`: removes the node and every incident edge. -/
def delNode (g : DiGraph) (v : String) : DiGraph :=
  { nodes := g.nodes.erase v,
    edges := g.edges.filter (fun e => decide (e.1 ≠ v ∧ e.2 ≠ v)) }

/-- Embeds one iteration of the loop in `Plan.makeNormalGraph`: for an
item-node, connect every predecessor to every successor, then delete the
item-node; other nodes are left alone. -/
def collapseStep (g : DiGraph) (v : String) : DiGraph :=
  if isItemNode v then
    delNode ((nodesTo g v).foldl
      (fun h x => (nodesFrom g v).foldl (fun h2 y => addEdge h2 x y) h) g) v
  else g

/-- Embeds `Plan.makeNormalGraph`: iterate `collapseStep` over the snapshot
of the node list taken before any deletion. -/
def makeNormalGraph (g : DiGraph) : DiGraph := g.nodes.foldl collapseStep g

/-- Every edge joins an item-node and a step node; recipe graphs built by
`Recipe.makeGraph` have this shape (edges run `item → step` for inputs and
`step → item` for outputs), hence so does every sliced subgraph. -/
def ItemSeparated (g : DiGraph) : Prop :=
  ∀ e ∈ g.edges, isItemNode e.1 ≠ isItemNode e.2

theorem addNodeIfAbsent_edges (g : DiGraph) (v : String) :
    (addNodeIfAbsent g v).edges = g.edges := by
  unfold addNodeIfAbsent
  split <;> rfl

theorem addNodeIfAbsent_eq_of_mem {g : DiGraph} {v : String}
    (h : v ∈ g.nodes) : addNodeIfAbsent g v = g := by
  simp [addNodeIfAbsent, h]

theorem appendEdge_nodes (g : DiGraph) (x y : String) :
    (appendEdge g x y).nodes = g.nodes := by
  unfold appendEdge
  split <;> rfl

theorem appendEdge_mem_edges (g : DiGraph) (x y a b : String) :
    (a, b) ∈ (appendEdge g x y).edges ↔
      (a, b) ∈ g.edges ∨ (a = x ∧ b = y) := by
  unfold appendEdge
  by_cases h : (x, y) ∈ g.edges
  · simp only [if_pos h]
    constructor
    · exact Or.inl
    · rintro (h1 | ⟨rfl, rfl⟩)
      · exact h1
      · exact h
  · simp [if_neg h, List.mem_append, Prod.ext_iff]

theorem addEdge_mem_edges (g : DiGraph) (x y a b : String) :
    (a, b) ∈ (addEdge g x y).edges ↔
      (a, b) ∈ g.edges ∨ (a = x ∧ b = y) := by
  unfold addEdge
  rw [appendEdge_mem_edges, addNodeIfAbsent_edges, addNodeIfAbsent_edges]

theorem addEdge_nodes_of_mem {g : DiGraph} {x y : String}
    (hx : x ∈ g.nodes) (hy : y ∈ g.nodes) : (addEdge g x y).nodes = g.nodes := by
  unfold addEdge
  rw [addNodeIfAbsent_eq_of_mem hx, addNodeIfAbsent_eq_of_mem hy,
    appendEdge_nodes]

theorem foldEnds_mem_edges (x : String) (ends : List String) :
    ∀ (h : DiGraph) (a b : String),
      (a, b) ∈ ((ends.foldl (fun h2 y => addEdge h2 x y) h).edges) ↔
        (a, b) ∈ h.edges ∨ (a = x ∧ b ∈ ends) := by
  induction ends with
  | nil => intro h a b; simp
  | cons e r ih =>
      intro h a b
      simp only [List.foldl_cons]
      rw [ih (addEdge h x e) a b, addEdge_mem_edges]
      simp only [List.mem_cons]
      tauto

theorem foldEnds_nodes {x : String} {ends : List String} :
    ∀ {h : DiGraph}, x ∈ h.nodes → (∀ y ∈ ends, y ∈ h.nodes) →
      ((ends.foldl (fun h2 y => addEdge h2 x y) h).nodes) = h.nodes := by
  induction ends with
  | nil => intro h _ _; rfl
  | cons e r ih =>
      intro h hx hends
      simp only [List.foldl_cons]
      have he : e ∈ h.nodes := hends e (List.mem_cons_self e r)
      have hnodes := addEdge_nodes_of_mem hx he
      rw [ih (by rw [hnodes]; exact hx)
        (fun y hy => by rw [hnodes]; exact hends y (List.mem_cons_of_mem e hy)),
        hnodes]

theorem foldStarts_mem_edges (starts ends : List String) :
    ∀ (h : DiGraph) (a b : String),
      (a, b) ∈ ((starts.foldl
        (fun h x => ends.foldl (fun h2 y => addEdge h2 x y) h) h).edges) ↔
        (a, b) ∈ h.edges ∨ (a ∈ starts ∧ b ∈ ends) := by
  induction starts with
  | nil => intro h a b; simp
  | cons s r ih =>
      intro h a b
      simp only [List.foldl_cons]
      rw [ih _ a b, foldEnds_mem_edges]
      simp only [List.mem_cons]
      tauto

theorem foldStarts_nodes {starts ends : List String} :
    ∀ {h : DiGraph}, (∀ x ∈ starts, x ∈ h.nodes) → (∀ y ∈ ends, y ∈ h.nodes) →
      ((starts.foldl
        (fun h x => ends.foldl (fun h2 y => addEdge h2 x y) h) h).nodes) =
        h.nodes := by
  induction starts with
  | nil => intro h _ _; rfl
  | cons s r ih =>
      intro h hs hends
      simp only [List.foldl_cons]
      have hnodes := foldEnds_nodes (hs s (List.mem_cons_self s r)) hends
      rw [ih (fun x hx => by rw [hnodes]; exact hs x (List.mem_cons_of_mem s hx))
        (fun y hy => by rw [hnodes]; exact hends y hy), hnodes]

theorem delNode_mem_nodes {g : DiGraph} (hnd : g.nodes.Nodup) (v w : String) :
    w ∈ (delNode g v).nodes ↔ w ≠ v ∧ w ∈ g.nodes := by
  exact hnd.mem_erase_iff

theorem delNode_mem_edges (g : DiGraph) (v a b : String) :
    (a, b) ∈ (delNode g v).edges ↔ (a, b) ∈ g.edges ∧ a ≠ v ∧ b ≠ v := by
  simp [delNode, List.mem_filter]

theorem mem_nodesTo (g : DiGraph) (v x : String) :
    x ∈ nodesTo g v ↔ x ∈ g.nodes ∧ (x, v) ∈ g.edges := by
  simp [nodesTo, List.mem_filter]

theorem mem_nodesFrom (g : DiGraph) (v y : String) :
    y ∈ nodesFrom g v ↔ y ∈ g.nodes ∧ (v, y) ∈ g.edges := by
  simp [nodesFrom, List.mem_filter]

/-- Invariant of the `makeNormalGraph` loop after the nodes in `D` have
been processed: nodes are the original ones minus processed item-nodes,
and edges are the untouched original edges plus one direct edge for every
producer/consumer pair of every processed item-node. -/
def Collapsed (g0 : DiGraph) (D : List String) (h : DiGraph) : Prop :=
  h.nodes.Nodup ∧
  (∀ v, v ∈ h.nodes ↔ v ∈ g0.nodes ∧ ¬(isItemNode v = true ∧ v ∈ D)) ∧
  (∀ x y, (x, y) ∈ h.edges ↔
    ((x, y) ∈ g0.edges ∧ ¬(isItemNode x = true ∧ x ∈ D) ∧
      ¬(isItemNode y = true ∧ y ∈ D)) ∨
    (∃ i, isItemNode i = true ∧ i ∈ D ∧ (x, i) ∈ g0.edges ∧ (i, y) ∈ g0.edges))

theorem bool_ne_true {b : Bool} (h : b ≠ true) : b = false := by
  cases b
  · rfl
  · exact absurd rfl h

theorem bool_true_ne {b : Bool} (h : true ≠ b) : b = false := by
  cases b
  · rfl
  · exact absurd rfl h

theorem collapseStep_item {g0 : DiGraph} (hwf : Wellformed g0)
    (hsep : ItemSeparated g0) {D : List String} {h : DiGraph} {n : String}
    (hinv : Collapsed g0 D h) (hitem : isItemNode n = true) (hnD : n ∉ D) :
    Collapsed g0 (D ++ [n]) (collapseStep h n) := by
  obtain ⟨hnodup, hnodes, hedges⟩ := hinv
  have hstep_to : ∀ x, (x, n) ∈ g0.edges → isItemNode x = false := by
    intro x hx
    have hne := hsep (x, n) hx
    rw [hitem] at hne
    exact bool_ne_true hne
  have hstep_from : ∀ y, (n, y) ∈ g0.edges → isItemNode y = false := by
    intro y hy
    have hne := hsep (n, y) hy
    rw [hitem] at hne
    exact bool_true_ne hne
  have hmemTo : ∀ x, x ∈ nodesTo h n ↔ (x, n) ∈ g0.edges := by
    intro x
    rw [mem_nodesTo, hedges x n, hnodes x]
    constructor
    · rintro ⟨-, (⟨he0, -, -⟩ | ⟨i, hiItem, -, -, hin⟩)⟩
      · exact he0
      · exact absurd (hstep_to i hin) (by rw [hiItem]; exact Bool.noConfusion)
    · intro he0
      have hxstep : isItemNode x = false := hstep_to x he0
      refine ⟨⟨(hwf _ he0).1, ?_⟩, Or.inl ⟨he0, ?_, ?_⟩⟩
      · rintro ⟨hxi, -⟩; rw [hxstep] at hxi; exact Bool.noConfusion hxi
      · rintro ⟨hxi, -⟩; rw [hxstep] at hxi; exact Bool.noConfusion hxi
      · rintro ⟨-, hnD2⟩; exact hnD hnD2
  have hmemFrom : ∀ y, y ∈ nodesFrom h n ↔ (n, y) ∈ g0.edges := by
    intro y
    rw [mem_nodesFrom, hedges n y, hnodes y]
    constructor
    · rintro ⟨-, (⟨he0, -, -⟩ | ⟨i, hiItem, -, hni, -⟩)⟩
      · exact he0
      · exact absurd (hstep_from i hni) (by rw [hiItem]; exact Bool.noConfusion)
    · intro he0
      have hystep : isItemNode y = false := hstep_from y he0
      refine ⟨⟨(hwf _ he0).2, ?_⟩, Or.inl ⟨he0, ?_, ?_⟩⟩
      · rintro ⟨hyi, -⟩; rw [hystep] at hyi; exact Bool.noConfusion hyi
      · rintro ⟨-, hnD2⟩; exact hnD hnD2
      · rintro ⟨hyi, -⟩; rw [hystep] at hyi; exact Bool.noConfusion hyi
  have hToSub : ∀ x ∈ nodesTo h n, x ∈ h.nodes :=
    fun x hx => (List.mem_filter.mp hx).1
  have hFromSub : ∀ y ∈ nodesFrom h n, y ∈ h.nodes :=
    fun y hy => (List.mem_filter.mp hy).1
  set g2 := (nodesTo h n).foldl
    (fun h1 x => (nodesFrom h n).foldl (fun h2 y => addEdge h2 x y) h1) h
    with hg2def
  have hg2nodes : g2.nodes = h.nodes :=
    foldStarts_nodes hToSub hFromSub
  have hg2edges : ∀ a b, (a, b) ∈ g2.edges ↔
      (a, b) ∈ h.edges ∨ (a ∈ nodesTo h n ∧ b ∈ nodesFrom h n) :=
    foldStarts_mem_edges (nodesTo h n) (nodesFrom h n) h
  have hg2nodup : g2.nodes.Nodup := by rw [hg2nodes]; exact hnodup
  have hcs : collapseStep h n = delNode g2 n := by
    unfold collapseStep
    rw [if_pos hitem]
  clear hg2def
  clear_value g2
  rw [hcs]
  refine ⟨?_, ?_, ?_⟩
  · exact List.Nodup.erase n hg2nodup
  · intro v
    rw [delNode_mem_nodes hg2nodup n v, hg2nodes, hnodes v]
    by_cases hv : v = n
    · subst hv
      simp [hitem]
    · simp only [List.mem_append, List.mem_singleton, hv, or_false]
      exact and_iff_right hv
  · intro x y
    rw [delNode_mem_edges, hg2edges x y, hedges x y]
    constructor
    · rintro ⟨(⟨he0, hxdel, hydel⟩ | ⟨i, hii, hiD, hxi, hiy⟩) | ⟨hxTo, hyFrom⟩,
        hxn, hyn⟩
      · refine Or.inl ⟨he0, ?_, ?_⟩
        · rintro ⟨hxi, hxmem⟩
          rcases List.mem_append.mp hxmem with hmd | hm1
          · exact hxdel ⟨hxi, hmd⟩
          · exact hxn (List.mem_singleton.mp hm1)
        · rintro ⟨hyi, hymem⟩
          rcases List.mem_append.mp hymem with hmd | hm1
          · exact hydel ⟨hyi, hmd⟩
          · exact hyn (List.mem_singleton.mp hm1)
      · exact Or.inr ⟨i, hii, List.mem_append_left _ hiD, hxi, hiy⟩
      · exact Or.inr ⟨n, hitem, List.mem_append_right _ (List.mem_singleton_self n),
          (hmemTo x).mp hxTo, (hmemFrom y).mp hyFrom⟩
    · rintro (⟨he0, hxdel, hydel⟩ | ⟨i, hii, hiD2, hxi, hiy⟩)
      · have hxn : x ≠ n := by
          rintro rfl
          exact hxdel ⟨hitem, List.mem_append_right _ (List.mem_singleton_self x)⟩
        have hyn : y ≠ n := by
          rintro rfl
          exact hydel ⟨hitem, List.mem_append_right _ (List.mem_singleton_self y)⟩
        refine ⟨Or.inl (Or.inl ⟨he0, ?_, ?_⟩), hxn, hyn⟩
        · rintro ⟨hxi, hmd⟩; exact hxdel ⟨hxi, List.mem_append_left _ hmd⟩
        · rintro ⟨hyi, hmd⟩; exact hydel ⟨hyi, List.mem_append_left _ hmd⟩
      · have hxstep : isItemNode x = false := by
          have hne := hsep (x, i) hxi
          rw [hii] at hne
          exact bool_ne_true hne
        have hystep : isItemNode y = false := by
          have hne := hsep (i, y) hiy
          rw [hii] at hne
          exact bool_true_ne hne
        have hxn : x ≠ n := by
          rintro rfl
          rw [hxstep] at hitem; exact Bool.noConfusion hitem
        have hyn : y ≠ n := by
          rintro rfl
          rw [hystep] at hitem; exact Bool.noConfusion hitem
        rcases List.mem_append.mp hiD2 with hiD | hin
        · exact ⟨Or.inl (Or.inr ⟨i, hii, hiD, hxi, hiy⟩), hxn, hyn⟩
        · have hieq : i = n := List.mem_singleton.mp hin
          subst hieq
          exact ⟨Or.inr ⟨(hmemTo x).mpr hxi, (hmemFrom y).mpr hiy⟩, hxn, hyn⟩

theorem collapsed_extend_nonitem {g0 : DiGraph} {D : List String}
    {h : DiGraph} {n : String} (hitem : isItemNode n = false)
    (hinv : Collapsed g0 D h) : Collapsed g0 (D ++ [n]) h := by
  obtain ⟨hnodup, hnodes, hedges⟩ := hinv
  have key : ∀ v, (isItemNode v = true ∧ v ∈ D ++ [n]) ↔
      (isItemNode v = true ∧ v ∈ D) := by
    intro v
    constructor
    · rintro ⟨hvi, hvm⟩
      rcases List.mem_append.mp hvm with hmd | hm1
      · exact ⟨hvi, hmd⟩
      · rw [List.mem_singleton.mp hm1, hitem] at hvi
        exact Bool.noConfusion hvi
    · rintro ⟨hvi, hvm⟩
      exact ⟨hvi, List.mem_append_left _ hvm⟩
  refine ⟨hnodup, ?_, ?_⟩
  · intro v
    rw [key v]
    exact hnodes v
  · intro x y
    rw [hedges x y]
    constructor
    · rintro (⟨he0, hx, hy⟩ | ⟨i, hii, hiD, hxi, hiy⟩)
      · exact Or.inl ⟨he0, fun hc => hx ((key x).mp hc),
          fun hc => hy ((key y).mp hc)⟩
      · exact Or.inr ⟨i, hii, List.mem_append_left _ hiD, hxi, hiy⟩
    · rintro (⟨he0, hx, hy⟩ | ⟨i, hii, hiD2, hxi, hiy⟩)
      · exact Or.inl ⟨he0, fun hc => hx ((key x).mpr hc),
          fun hc => hy ((key y).mpr hc)⟩
      · rcases List.mem_append.mp hiD2 with hiD | hin
        · exact Or.inr ⟨i, hii, hiD, hxi, hiy⟩
        · rw [List.mem_singleton.mp hin, hitem] at hii
          exact Bool.noConfusion hii

theorem collapse_fold {g0 : DiGraph} (hwf : Wellformed g0)
    (hsep : ItemSeparated g0) :
    ∀ (todo D : List String) (h : DiGraph), todo.Nodup →
      (∀ v ∈ todo, v ∉ D) → Collapsed g0 D h →
      Collapsed g0 (D ++ todo) (todo.foldl collapseStep h) := by
  intro todo
  induction todo with
  | nil => intro D h _ _ hinv; simpa using hinv
  | cons n rest ih =>
      intro D h hnd hdisj hinv
      simp only [List.foldl_cons]
      have hndrest := List.nodup_cons.mp hnd
      have hdisj2 : ∀ v ∈ rest, v ∉ D ++ [n] := by
        intro v hv hmem
        rcases List.mem_append.mp hmem with hmd | hm1
        · exact hdisj v (List.mem_cons_of_mem n hv) hmd
        · rw [List.mem_singleton.mp hm1] at hv
          exact hndrest.1 hv
      by_cases hitem : isItemNode n = true
      · have h1 := collapseStep_item hwf hsep hinv hitem
          (hdisj n (List.mem_cons_self n rest))
        have h2 := ih (D ++ [n]) (collapseStep h n) hndrest.2 hdisj2 h1
        rw [List.append_assoc] at h2
        simpa using h2
      · rw [Bool.not_eq_true] at hitem
        have hstep : collapseStep h n = h := by simp [collapseStep, hitem]
        rw [hstep]
        have h2 := ih (D ++ [n]) h hndrest.2 hdisj2
          (collapsed_extend_nonitem hitem hinv)
        rw [List.append_assoc] at h2
        simpa using h2

/-- Claim C2: on a sliced graph (unique node names, every edge joining an
item-node and a step node), `Plan.makeNormalGraph` keeps exactly the
non-item nodes, and its edges are exactly the pairs `(x, y)` such that an
item-node of the sliced graph had an incoming edge from `x` and an
outgoing edge to `y`; every item-node is deleted. -/
theorem makeNormalGraph_correct (g : DiGraph) (hwf : Wellformed g)
    (hnd : g.nodes.Nodup) (hsep : ItemSeparated g) :
    (∀ v, v ∈ (makeNormalGraph g).nodes ↔
      v ∈ g.nodes ∧ isItemNode v = false) ∧
    (∀ x y, (x, y) ∈ (makeNormalGraph g).edges ↔
      ∃ i, i ∈ g.nodes ∧ isItemNode i = true ∧
        (x, i) ∈ g.edges ∧ (i, y) ∈ g.edges) := by
  have hinit : Collapsed g [] g := by
    refine ⟨hnd, fun v => by simp, fun x y => by simp⟩
  have hfin := collapse_fold hwf hsep g.nodes [] g hnd
    (fun v _ hmem => absurd hmem (List.not_mem_nil v)) hinit
  rw [List.nil_append] at hfin
  obtain ⟨-, hnodes, hedges⟩ := hfin
  unfold makeNormalGraph
  constructor
  · intro v
    rw [hnodes v]
    constructor
    · rintro ⟨hvg, hnd2⟩
      refine ⟨hvg, ?_⟩
      cases hvi : isItemNode v
      · rfl
      · exact absurd ⟨hvi, hvg⟩ hnd2
    · rintro ⟨hvg, hvi⟩
      refine ⟨hvg, ?_⟩
      rintro ⟨hvi2, -⟩
      rw [hvi] at hvi2
      exact Bool.noConfusion hvi2
  · intro x y
    rw [hedges x y]
    constructor
    · rintro (⟨he0, hxdel, hydel⟩ | ⟨i, hii, hig, hxi, hiy⟩)
      · exfalso
        have hne := hsep (x, y) he0
        cases hxi : isItemNode x
        · cases hyi : isItemNode y
          · rw [hxi, hyi] at hne; exact hne rfl
          · exact hydel ⟨hyi, (hwf _ he0).2⟩
        · exact hxdel ⟨hxi, (hwf _ he0).1⟩
      · exact ⟨i, hig, hii, hxi, hiy⟩
    · rintro ⟨i, hig, hii, hxi, hiy⟩
      exact Or.inr ⟨i, hii, hig, hxi, hiy⟩

/-- Concrete sliced graph `A → item.x → B` used as the C2 witness input. -/
def gC2 : DiGraph :=
  ⟨["A", "item.x", "B"], [("A", "item.x"), ("item.x", "B")]⟩

/-- Witness for C2: the hypotheses of `makeNormalGraph_correct` hold for
the concrete sliced graph `gC2` and the theorem applies to it. -/
theorem makeNormalGraph_correct_witness :
    Wellformed gC2 ∧ gC2.nodes.Nodup ∧ ItemSeparated gC2 ∧
      ((∀ v, v ∈ (makeNormalGraph gC2).nodes ↔
        v ∈ gC2.nodes ∧ isItemNode v = false) ∧
       (∀ x y, (x, y) ∈ (makeNormalGraph gC2).edges ↔
        ∃ i, i ∈ gC2.nodes ∧ isItemNode i = true ∧
          (x, i) ∈ gC2.edges ∧ (i, y) ∈ gC2.edges)) := by
  have hwf : Wellformed gC2 := by unfold Wellformed; decide
  have hnd : gC2.nodes.Nodup := by decide
  have hsep : ItemSeparated gC2 := by unfold ItemSeparated; decide
  exact ⟨hwf, hnd, hsep, makeNormalGraph_correct gC2 hwf hnd hsep⟩

/-- Concrete values flowing through variant bindings: flavour values are
numbers or strings; resource identities and upstream variant references
are strings. -/
inductive Val where
  | i (n : Int)
  | s (st : String)
deriving DecidableEq

/-- Python exceptions surfaced by the embedded code. -/
inductive PyErr where
  | typeError
  | unboundLocal
  | missingShelf
  | valueError
deriving DecidableEq

/-- Association-list lookup with Python-dict key semantics. -/
def lookupD {β : Type} : List (String × β) → String → Option β
  | [], _ => none
  | (k, v) :: r, a => if k = a then some v else lookupD r a

/-- Python-dict assignment `d[k] = v`: replace the value in place when the
key exists (keeping its position), append a new entry otherwise. -/
def dictInsert {α β : Type} [DecidableEq α] (l : List (α × β)) (k : α)
    (v : β) : List (α × β) :=
  if k ∈ l.map Prod.fst then
    l.map (fun p => if p.1 = k then (k, v) else p)
  else l ++ [(k, v)]

/-- Modelled from the spec: `dict_hash` is imported from
`chefkoch.container` in `recipe.py` but is absent from the sources.  The
spec requires a pure, deterministic content hash that is order-independent
over the binding's key/value pairs, so the hash is modelled as the
multiset of those pairs, the canonical order-independent content of a
binding. -/
def dict_hash (b : List (String × Val)) : Multiset (String × Val) :=
  (b : Multiset (String × Val))

/-- Embeds `itertools.product(*values)` over a list of value lists, in the
order Python yields the tuples (leftmost input varies slowest). -/
def prodAll : List (List Val) → List (List Val)
  | [] => [[]]
  | xs :: rest =>
      xs.foldr (fun x acc => (prodAll rest).map (fun t => x :: t) ++ acc) []

/-- Embeds the input-resolution loop of the `len(children) == 0` branch of
`Plan.buildVariants` (recipe.py lines 345-351): a flavour input resolves
to its full enumerated value set, any other input to the singleton
`"Resource/<input>/<resourceItemHash>"` naming the sole item of the
resource's shelf; `getRes` returning `none` models the exception raised
when no such sole item exists.  Flavour value sets are Modelled from the
spec (module `chefkoch.fridge` is not among the sources): `FlavourShelf`
items are the enumerated value set of the parameter. -/
def resolveSinkInputs (flavours : List (String × List Val))
    (getRes : String → Option String) :
    List String → List (String × List Val) →
    Except PyErr (List (String × List Val))
  | [], acc => .ok acc
  | inp :: rest, acc =>
      match lookupD flavours inp with
      | some items => resolveSinkInputs flavours getRes rest
          (dictInsert acc inp items)
      | none =>
          match getRes inp with
          | some rh => resolveSinkInputs flavours getRes rest
              (dictInsert acc inp [Val.s ("Resource/" ++ inp ++ "/" ++ rh)])
          | none => .error .missingShelf

/-- Embeds the `len(children) == 0` branch of `Plan.buildVariants`
(recipe.py lines 340-358): resolve every direct input, take the Cartesian
product of the value sets in input order, and key each resulting binding
by its content hash in the variants dictionary. -/
def buildVariantsNoChildren (flavours : List (String × List Val))
    (getRes : String → Option String) (inputRefs : List String) :
    Except PyErr (List (Multiset (String × Val) × List (String × Val))) :=
  match resolveSinkInputs flavours getRes inputRefs [] with
  | .error e => .error e
  | .ok inputs =>
      .ok ((prodAll (inputs.map Prod.snd)).foldl
        (fun acc c => dictInsert acc
          (dict_hash ((inputs.map Prod.fst).zip c))
          ((inputs.map Prod.fst).zip c)) [])

/-- Embeds the direct-input resolution loop of the `len(children) > 0`
branch of `Plan.buildVariants` (recipe.py lines 273-281) exactly as
written, including the mis-indented final statement: after the
`if input in self.flavours / elif input in self.startingItems` dispatch,
the assignment `inputs[input] = {"Resource/" + input + "/" +
str(resourceItemHash)}` executes unconditionally on every iteration,
overwriting any flavour binding just made and reading the loop-carried
local `resourceItemHash` (second argument below), which is unbound
(`none`) until some earlier iteration took the `elif` branch. -/
def resolveChildInputs (flavours : List (String × List Val))
    (startingItems : List String) (getRes : String → Option String) :
    List String → Option String → List (String × List Val) →
    Except PyErr (List (String × List Val))
  | [], _, acc => .ok acc
  | inp :: rest, rih, acc =>
      match lookupD flavours inp with
      | some items =>
          match rih with
          | none => .error .unboundLocal
          | some rh => resolveChildInputs flavours startingItems getRes rest
              (some rh) (dictInsert (dictInsert acc inp items) inp
                [Val.s ("Resource/" ++ inp ++ "/" ++ rh)])
      | none =>
          if inp ∈ startingItems then
            match getRes inp with
            | none => .error .valueError
            | some rh => resolveChildInputs flavours startingItems getRes rest
                (some rh)
                (dictInsert acc inp [Val.s ("Resource/" ++ inp ++ "/" ++ rh)])
          else
            match rih with
            | none => .error .unboundLocal
            | some rh => resolveChildInputs flavours startingItems getRes rest
                (some rh)
                (dictInsert acc inp [Val.s ("Resource/" ++ inp ++ "/" ++ rh)])

/-- Claim C5: the content hash identifying variants is a pure,
deterministic, order-independent function of a binding's key/value pairs:
bindings holding the same pairs in any iteration order hash identically,
and equal inputs always hash identically. -/
theorem dict_hash_order_independent :
    (∀ b1 b2 : List (String × Val), b1.Perm b2 → dict_hash b1 = dict_hash b2) ∧
    (∀ b1 b2 : List (String × Val), b1 = b2 → dict_hash b1 = dict_hash b2) := by
  constructor
  · intro b1 b2 h
    exact Multiset.coe_eq_coe.mpr h
  · intro b1 b2 h
    rw [h]

/-- Witness for C5: a concrete two-entry binding and its transposition
hash identically. -/
theorem dict_hash_order_independent_witness :
    ([("d", Val.i 2), ("b", Val.i 5)] : List (String × Val)).Perm
        [("b", Val.i 5), ("d", Val.i 2)] ∧
      dict_hash [("d", Val.i 2), ("b", Val.i 5)] =
        dict_hash [("b", Val.i 5), ("d", Val.i 2)] := by
  have hp : ([("d", Val.i 2), ("b", Val.i 5)] : List (String × Val)).Perm
      [("b", Val.i 5), ("d", Val.i 2)] := by decide
  exact ⟨hp, dict_hash_order_independent.1 _ _ hp⟩

/-- Collapsed graph `A → B` placing step `B` downstream of `A`, so that
`B` has an incoming edge and `buildVariants(B)` takes the
`len(children) > 0` branch. -/
def gC3 : DiGraph := ⟨["A", "B"], [("A", "B")]⟩

/-- Flavour table with a single parameter `d` enumerating `[2, 3]`. -/
def flavC3 : List (String × List Val) := [("d", [Val.i 2, Val.i 3])]

/-- Claim C3 (code evaluation at the failing inputs): for a step with an
incoming edge (here `B` in `gC3`), the direct-input loop of
`Plan.buildVariants` does not give a flavour input its enumerated value
set.  With direct inputs `["d"]` where `d` is a flavour, the mis-indented
resource assignment reads the unbound local `resourceItemHash` and the
call raises; with direct inputs `["r", "d"]` where `r` is a starting
resource, the flavour input `d` ends up bound to the singleton
`Resource/d/42` built from `r`'s resource hash instead of to `[2, 3]`. -/
theorem buildVariants_flavour_overwritten :
    nodesTo gC3 "B" = ["A"] ∧
    resolveChildInputs flavC3 [] (fun _ => none) ["d"] none [] =
      .error .unboundLocal ∧
    resolveChildInputs flavC3 ["r"]
        (fun s => if s = "r" then some "42" else none) ["r", "d"] none [] =
      .ok [("r", [Val.s "Resource/r/42"]), ("d", [Val.s "Resource/d/42"])] := by
  refine ⟨by decide, rfl, rfl⟩

theorem prodAll_nil_head (rest : List (List Val)) : prodAll ([] :: rest) = [] :=
  rfl

theorem prodAll_cons_head (a : Val) (xs : List Val) (rest : List (List Val)) :
    prodAll ((a :: xs) :: rest) =
      (prodAll rest).map (fun t => a :: t) ++ prodAll (xs :: rest) := rfl

theorem prodAll_single (l : List Val) : prodAll [l] = l.map (fun y => [y]) := by
  induction l with
  | nil => rfl
  | cons a xs ih =>
      rw [prodAll_cons_head, ih]
      rfl

theorem mem_prodAll_pair {L1 L2 : List Val} {c : List Val} :
    c ∈ prodAll [L1, L2] ↔ ∃ x ∈ L1, ∃ y ∈ L2, c = [x, y] := by
  induction L1 with
  | nil =>
      rw [prodAll_nil_head]
      simp
  | cons a xs ih =>
      rw [prodAll_cons_head, prodAll_single, List.map_map]
      simp only [List.mem_append, List.mem_map, ih, List.mem_cons,
        Function.comp_apply]
      constructor
      · rintro (⟨y, hy, rfl⟩ | ⟨x, hx, y, hy, rfl⟩)
        · exact ⟨a, Or.inl rfl, y, hy, rfl⟩
        · exact ⟨x, Or.inr hx, y, hy, rfl⟩
      · rintro ⟨x, hax | hx, y, hy, rfl⟩
        · subst hax
          exact Or.inl ⟨y, hy, rfl⟩
        · exact Or.inr ⟨x, hx, y, hy, rfl⟩

theorem length_prodAll_pair (L1 L2 : List Val) :
    (prodAll [L1, L2]).length = L1.length * L2.length := by
  induction L1 with
  | nil => simp [prodAll_nil_head]
  | cons a xs ih =>
      rw [prodAll_cons_head]
      simp only [List.length_append, List.length_map, ih, prodAll_single,
        List.length_cons]
      ring

theorem nodup_prodAll_pair {L1 L2 : List Val} (h1 : L1.Nodup)
    (h2 : L2.Nodup) : (prodAll [L1, L2]).Nodup := by
  induction L1 with
  | nil =>
      rw [prodAll_nil_head]
      exact List.nodup_nil
  | cons a xs ih =>
      obtain ⟨hax, hxs⟩ := List.nodup_cons.mp h1
      rw [prodAll_cons_head, List.nodup_append]
      refine ⟨?_, ih hxs, ?_⟩
      · rw [prodAll_single, List.map_map]
        refine List.Nodup.map ?_ h2
        intro y1 y2 h
        simpa using h
      · intro c hc hc2
        rw [prodAll_single, List.map_map] at hc
        obtain ⟨y, hy, hceq⟩ := List.mem_map.mp hc
        rw [← hceq] at hc2
        obtain ⟨x2, hx2, y2, hy2, heq⟩ := mem_prodAll_pair.mp hc2
        have hx2a : a = x2 ∧ y = y2 := by simpa using heq
        rw [← hx2a.1] at hx2
        exact hax hx2

theorem dict_hash_pair_inj {r1 r2 : String} (hne : r1 ≠ r2)
    {x y x2 y2 : Val}
    (h : dict_hash [(r1, x), (r2, y)] = dict_hash [(r1, x2), (r2, y2)]) :
    x = x2 ∧ y = y2 := by
  have hperm : ([(r1, x), (r2, y)] : List (String × Val)).Perm
      [(r1, x2), (r2, y2)] := Multiset.coe_eq_coe.mp h
  have h1 : (r1, x) ∈ [(r1, x2), (r2, y2)] := hperm.mem_iff.mp (by simp)
  have h2 : (r2, y) ∈ [(r1, x2), (r2, y2)] := hperm.mem_iff.mp (by simp)
  constructor
  · rcases List.mem_cons.mp h1 with he | he
    · exact (Prod.mk.injEq _ _ _ _ ▸ he).2
    · exfalso
      have heq := List.mem_singleton.mp he
      exact hne (Prod.mk.injEq _ _ _ _ ▸ heq).1
  · rcases List.mem_cons.mp h2 with he | he
    · exfalso
      exact hne ((Prod.mk.injEq _ _ _ _ ▸ he).1).symm
    · exact (Prod.mk.injEq _ _ _ _ ▸ List.mem_singleton.mp he).2

theorem dictInsert_map_fst_fresh {α β : Type} [DecidableEq α]
    {l : List (α × β)} {k : α} (h : k ∉ l.map Prod.fst) (v : β) :
    (dictInsert l k v).map Prod.fst = l.map Prod.fst ++ [k] := by
  rw [dictInsert, if_neg h]
  simp

theorem foldl_dictInsert_map_fst {γ α β : Type} [DecidableEq α]
    (f : γ → α) (val : γ → β) :
    ∀ (cs : List γ) (acc : List (α × β)),
      (cs.map f).Nodup → (∀ c ∈ cs, f c ∉ acc.map Prod.fst) →
      ((cs.foldl (fun a c => dictInsert a (f c) (val c)) acc).map Prod.fst) =
        acc.map Prod.fst ++ cs.map f := by
  intro cs
  induction cs with
  | nil => intro acc _ _; simp
  | cons c rest ih =>
      intro acc hnd hfresh
      simp only [List.foldl_cons]
      have hc := hfresh c (List.mem_cons_self c rest)
      have hkeys := dictInsert_map_fst_fresh hc (val c)
      have hndc : (f c :: rest.map f).Nodup := by
        rw [← List.map_cons]
        exact hnd
      have hnd2 := List.nodup_cons.mp hndc
      have hfresh2 : ∀ c2 ∈ rest, f c2 ∉
          (dictInsert acc (f c) (val c)).map Prod.fst := by
        intro c2 hc2 hmem
        rw [hkeys] at hmem
        rcases List.mem_append.mp hmem with hm | hm
        · exact hfresh c2 (List.mem_cons_of_mem c hc2) hm
        · have hfc : f c2 = f c := List.mem_singleton.mp hm
          exact hnd2.1 (hfc ▸ List.mem_map.mpr ⟨c2, hc2, rfl⟩)
      rw [ih (dictInsert acc (f c) (val c)) hnd2.2 hfresh2, hkeys,
        List.append_assoc]
      rfl

/-- Flavour table of the end-to-end scenario: `d = [2, 3]`, `b = [5]`. -/
def flavC4 : List (String × List Val) :=
  [("flavour.d", [Val.i 2, Val.i 3]), ("flavour.b", [Val.i 5])]

/-- Collapsed graph of the end-to-end scenario: the single sink step `A`. -/
def gC4 : DiGraph := ⟨["A"], []⟩

/-- Claim C4: a step with no incoming edges and exactly two distinct
flavour inputs with enumerated value sets of sizes `m` and `n` produces
exactly `m * n` distinctly hashed variants (the modelled content hash is
injective on the produced bindings); in particular the scenario
`A : {d ∈ [2, 3], b ∈ [5]}` yields exactly 2 distinctly hashed variants,
and `A`, being a sink, sits at priority level 0. -/
theorem buildVariants_product_count :
    (∀ (flavours : List (String × List Val)) (getRes : String → Option String)
       (r1 r2 : String) (L1 L2 : List Val), r1 ≠ r2 →
       lookupD flavours r1 = some L1 → lookupD flavours r2 = some L2 →
       L1.Nodup → L2.Nodup →
       ∃ vs, buildVariantsNoChildren flavours getRes [r1, r2] = .ok vs ∧
         vs.length = L1.length * L2.length ∧ (vs.map Prod.fst).Nodup) ∧
    (∃ vs, buildVariantsNoChildren flavC4 (fun _ => none)
        ["flavour.d", "flavour.b"] = .ok vs ∧ vs.length = 2 ∧
        (vs.map Prod.fst).Nodup) ∧
    assertPriority gC4 "A" = some 0 := by
  have hgen : ∀ (flavours : List (String × List Val))
      (getRes : String → Option String)
      (r1 r2 : String) (L1 L2 : List Val), r1 ≠ r2 →
      lookupD flavours r1 = some L1 → lookupD flavours r2 = some L2 →
      L1.Nodup → L2.Nodup →
      ∃ vs, buildVariantsNoChildren flavours getRes [r1, r2] = .ok vs ∧
        vs.length = L1.length * L2.length ∧ (vs.map Prod.fst).Nodup := by
    intro flavours getRes r1 r2 L1 L2 hne h1 h2 hn1 hn2
    have e1 : dictInsert ([] : List (String × List Val)) r1 L1 = [(r1, L1)] := by
      simp [dictInsert]
    have e2 : dictInsert [(r1, L1)] r2 L2 = [(r1, L1), (r2, L2)] := by
      simp [dictInsert, Ne.symm hne]
    have hr : resolveSinkInputs flavours getRes [r1, r2] [] =
        .ok [(r1, L1), (r2, L2)] := by
      simp [resolveSinkInputs, h1, h2, e1, e2]
    have hbuild : buildVariantsNoChildren flavours getRes [r1, r2] =
        .ok ((prodAll [L1, L2]).foldl
          (fun acc c => dictInsert acc (dict_hash ([r1, r2].zip c))
            ([r1, r2].zip c)) []) := by
      unfold buildVariantsNoChildren
      rw [hr]
      rfl
    have hfnodup : ((prodAll [L1, L2]).map
        (fun c => dict_hash ([r1, r2].zip c))).Nodup := by
      refine List.Nodup.map_on ?_ (nodup_prodAll_pair hn1 hn2)
      intro c1 hc1 c2 hc2 hf
      obtain ⟨x1, hx1, y1, hy1, rfl⟩ := mem_prodAll_pair.mp hc1
      obtain ⟨x2, hx2, y2, hy2, rfl⟩ := mem_prodAll_pair.mp hc2
      obtain ⟨hx, hy⟩ := dict_hash_pair_inj hne hf
      rw [hx, hy]
    have hkeys := foldl_dictInsert_map_fst
      (fun c => dict_hash ([r1, r2].zip c)) (fun c => [r1, r2].zip c)
      (prodAll [L1, L2]) [] hfnodup (by intro c _ h; simp at h)
    refine ⟨_, hbuild, ?_, ?_⟩
    · have hlm : (((prodAll [L1, L2]).foldl
          (fun acc c => dictInsert acc (dict_hash ([r1, r2].zip c))
            ([r1, r2].zip c)) []).map Prod.fst).length =
          (prodAll [L1, L2]).length := by
        rw [hkeys]
        simp
      rw [← length_prodAll_pair L1 L2, ← hlm]
      exact (List.length_map _ _).symm
    · rw [hkeys]
      simpa using hfnodup
  refine ⟨hgen, ?_, by decide⟩
  obtain ⟨vs, hbv, hlen, hnd⟩ := hgen flavC4 (fun _ => none)
    "flavour.d" "flavour.b" [Val.i 2, Val.i 3] [Val.i 5]
    (by decide) (by decide) (by decide) (by decide) (by decide)
  exact ⟨vs, hbv, by simpa using hlen, hnd⟩

/-- Witness for C4: the general cross-product bound applied at the
concrete scenario flavour table. -/
theorem buildVariants_product_count_witness :
    ("flavour.d" : String) ≠ "flavour.b" ∧
      lookupD flavC4 "flavour.d" = some [Val.i 2, Val.i 3] ∧
      lookupD flavC4 "flavour.b" = some [Val.i 5] ∧
      ∃ vs, buildVariantsNoChildren flavC4 (fun _ => none)
          ["flavour.d", "flavour.b"] = .ok vs ∧
        vs.length = ([Val.i 2, Val.i 3] : List Val).length *
          ([Val.i 5] : List Val).length ∧
        (vs.map Prod.fst).Nodup := by
  refine ⟨by decide, by decide, by decide, ?_⟩
  exact buildVariants_product_count.1 flavC4 (fun _ => none)
    "flavour.d" "flavour.b" [Val.i 2, Val.i 3] [Val.i 5]
    (by decide) (by decide) (by decide) (by decide) (by decide)

/-- Embeds `recipe.Node`: a simulation step with its name, input and
output dictionaries, step source and execution type. -/
structure Node where
  name : String
  inputs : List (String × String)
  outputs : List (String × String)
  step : String
  nodeType : String
deriving DecidableEq

/-- Embeds `recipe.Recipe`: the node list plus the item/step graph. -/
structure Recipe where
  nodes : List Node
  graph : DiGraph
deriving DecidableEq

/-- Errors raised by `Recipe.inputIntegrity`: the `NameError` carries the
duplicated outputs (`node_outputs & outputs_of_all_nodes`) and the name of
the offending node, the `ImportError` reports a disconnected graph. -/
inductive IntegrityErr where
  | nameError (dups : List String) (nodeName : String)
  | importError
deriving DecidableEq

/-- `set(node.outputs.values())`; sets are modelled by lists with
membership semantics. -/
def outputVals (n : Node) : List String := n.outputs.map Prod.snd

/-- Undirected adjacency, for the weakly-connected component check. -/
def adjacentB (g : DiGraph) (v w : String) : Bool :=
  decide ((v, w) ∈ g.edges) || decide ((w, v) ∈ g.edges)

/-- Fuel-bounded undirected reachability. -/
def reachUndir (g : DiGraph) : Nat → String → String → Bool
  | 0, v, w => v == w
  | fuel + 1, v, w =>
      v == w || g.nodes.any (fun u => adjacentB g v u && reachUndir g fuel u w)

/-- Embeds `len(self.graph.components()) > 1` being false: the graph
library partitions nodes into weakly-connected components, and the count
is at most one exactly when every node is undirected-reachable from the
first (or the graph is empty). -/
def isSingleComponent (g : DiGraph) : Bool :=
  match g.nodes with
  | [] => true
  | v :: _ => g.nodes.all (fun w => reachUndir g g.nodes.length v w)

/-- State-passing embedding of the duplicate-output loop of
`Recipe.inputIntegrity` (recipe.py lines 557-570): the recipe state is
threaded through every iteration untouched, since the loop only reads
`self.nodes` and writes the local accumulator set. -/
def integrityLoop (r : Recipe) :
    List String → List Node → Recipe × Except IntegrityErr (List String)
  | seen, [] => (r, .ok seen)
  | seen, n :: rest =>
      let overlap := (outputVals n).filter (fun o => decide (o ∈ seen))
      if overlap ≠ [] then (r, .error (.nameError overlap n.name))
      else integrityLoop r (seen ++ outputVals n) rest

/-- State-passing embedding of `Recipe.inputIntegrity`: duplicate-output
scan, then the connected-component check, then `return None, None`.  The
first component is the recipe state after the call (mutation frame). -/
def inputIntegrityS (r : Recipe) :
    Recipe × Except IntegrityErr (Option Unit × Option Unit) :=
  match integrityLoop r [] r.nodes with
  | (r1, .error e) => (r1, .error e)
  | (r1, .ok _) =>
      if isSingleComponent r1.graph then (r1, .ok (none, none))
      else (r1, .error .importError)

theorem integrityLoop_fst (r : Recipe) :
    ∀ (ns : List Node) (seen : List String), (integrityLoop r seen ns).1 = r := by
  intro ns
  induction ns with
  | nil => intro seen; rfl
  | cons n rest ih =>
      intro seen
      unfold integrityLoop
      by_cases hov : (outputVals n).filter (fun o => decide (o ∈ seen)) ≠ []
      · rw [if_pos hov]
      · rw [if_neg hov]
        exact ih (seen ++ outputVals n)

/-- Claim C9: `inputIntegrity()` does not mutate the Recipe — whether it
returns normally or raises, the node list and the graph are unchanged, so
unreachable nodes are never removed automatically. -/
theorem inputIntegrity_no_mutation : ∀ r : Recipe, (inputIntegrityS r).1 = r := by
  intro r
  unfold inputIntegrityS
  have hloop := integrityLoop_fst r r.nodes []
  rcases hres : integrityLoop r [] r.nodes with ⟨r1, res⟩
  have h1 : r1 = r := by
    rw [hres] at hloop
    exact hloop
  cases res with
  | error e => simpa using h1
  | ok s =>
      simp only []
      split <;> simpa using h1

theorem integrityLoop_finds_dup (r : Recipe) :
    ∀ (ns : List Node) (seen : List String),
      (∃ l2 n2 l3 o, ns = l2 ++ n2 :: l3 ∧ o ∈ outputVals n2 ∧
        (o ∈ seen ∨ ∃ n1 ∈ l2, o ∈ outputVals n1)) →
      ∃ dups nm, (integrityLoop r seen ns).2 = .error (.nameError dups nm) ∧
        dups ≠ [] ∧ ∃ lpre npub lpost, ns = lpre ++ npub :: lpost ∧
          nm = npub.name ∧ ∀ d ∈ dups, d ∈ outputVals npub ∧
            (d ∈ seen ∨ ∃ n1 ∈ lpre, d ∈ outputVals n1) := by
  intro ns
  induction ns with
  | nil =>
      rintro seen ⟨l2, n2, l3, o, hsplit, -, -⟩
      exact absurd hsplit.symm (List.append_ne_nil_of_right_ne_nil l2 (by simp))
  | cons n rest ih =>
      rintro seen ⟨l2, n2, l3, o, hsplit, ho2, hor⟩
      unfold integrityLoop
      by_cases hov : (outputVals n).filter (fun o => decide (o ∈ seen)) ≠ []
      · rw [if_pos hov]
        refine ⟨_, _, rfl, hov, [], n, rest, rfl, rfl, ?_⟩
        intro d hd
        have hmem := List.mem_filter.mp hd
        exact ⟨hmem.1, Or.inl (of_decide_eq_true hmem.2)⟩
      · rw [if_neg hov]
        rw [not_not] at hov
        have hfilter : ∀ o2 ∈ outputVals n, o2 ∉ seen := by
          intro o2 ho2m hseen
          have : o2 ∈ (outputVals n).filter (fun o => decide (o ∈ seen)) :=
            List.mem_filter.mpr ⟨ho2m, decide_eq_true hseen⟩
          rw [hov] at this
          exact absurd this (List.not_mem_nil o2)
        cases l2 with
        | nil =>
            exfalso
            simp only [List.nil_append, List.cons.injEq] at hsplit
            rcases hor with hseen | ⟨n1, hn1, -⟩
            · exact hfilter o (hsplit.1 ▸ ho2) hseen
            · exact absurd hn1 (List.not_mem_nil n1)
        | cons n1f l2t =>
            simp only [List.cons_append, List.cons.injEq] at hsplit
            obtain ⟨hn1f, hrest⟩ := hsplit
            have hnew : ∃ l2b n2b l3b ob, rest = l2b ++ n2b :: l3b ∧
                ob ∈ outputVals n2b ∧ (ob ∈ seen ++ outputVals n ∨
                  ∃ nn ∈ l2b, ob ∈ outputVals nn) := by
              refine ⟨l2t, n2, l3, o, hrest, ho2, ?_⟩
              rcases hor with hseen | ⟨nn1, hnn1, honn1⟩
              · exact Or.inl (List.mem_append_left _ hseen)
              · rcases List.mem_cons.mp hnn1 with hn1e | hn1m
                · refine Or.inl (List.mem_append_right _ ?_)
                  rw [hn1f, ← hn1e]
                  exact honn1
                · exact Or.inr ⟨nn1, hn1m, honn1⟩
            obtain ⟨dups, nm, herr, hne, lpre, npub, lpost, hsp2, hnm, hprop⟩ :=
              ih (seen ++ outputVals n) hnew
            refine ⟨dups, nm, herr, hne, n :: lpre, npub, lpost, ?_, hnm, ?_⟩
            · rw [List.cons_append, hsp2]
            · intro d hd
              obtain ⟨hd1, hd2⟩ := hprop d hd
              refine ⟨hd1, ?_⟩
              rcases hd2 with hdseen | ⟨n1, hn1, hon1⟩
              · rcases List.mem_append.mp hdseen with hs | hn
                · exact Or.inl hs
                · exact Or.inr ⟨n, List.mem_cons_self n lpre, hn⟩
              · exact Or.inr ⟨n1, List.mem_cons_of_mem n hn1, hon1⟩

theorem integrityLoop_all_fresh (r : Recipe) :
    ∀ (ns : List Node) (seen : List String),
      ns.Pairwise (fun a b => ∀ o ∈ outputVals a, o ∉ outputVals b) →
      (∀ n ∈ ns, ∀ o ∈ outputVals n, o ∉ seen) →
      ∃ s2, (integrityLoop r seen ns).2 = .ok s2 := by
  intro ns
  induction ns with
  | nil => intro seen _ _; exact ⟨seen, rfl⟩
  | cons n rest ih =>
      intro seen hpw hfresh
      unfold integrityLoop
      have hov : (outputVals n).filter (fun o => decide (o ∈ seen)) = [] := by
        rw [List.filter_eq_nil_iff]
        intro o ho
        exact fun hdec => hfresh n (List.mem_cons_self n rest) o ho
          (of_decide_eq_true hdec)
      rw [if_neg (by rw [hov]; exact not_not_intro rfl)]
      obtain ⟨hhead, htail⟩ := List.pairwise_cons.mp hpw
      refine ih (seen ++ outputVals n) htail ?_
      intro n2 hn2 o ho hmem
      rcases List.mem_append.mp hmem with hs | hn
      · exact hfresh n2 (List.mem_cons_of_mem n hn2) o ho hs
      · exact hhead n2 hn2 o hn ho

/-- Claim C6: if two distinct nodes of a Recipe publish a common output
name, `inputIntegrity()` raises a `NameError` identifying the duplicated
outputs and the offending node (deterministically — the embedding is a
function of the recipe); if no two distinct nodes share an output name
and the graph has a single weakly-connected component, it raises nothing
and returns `(None, None)`. -/
theorem inputIntegrity_duplicate_outputs :
    (∀ r : Recipe,
      (∃ l1 n1 l2 n2 l3 o, r.nodes = l1 ++ n1 :: l2 ++ n2 :: l3 ∧
        o ∈ outputVals n1 ∧ o ∈ outputVals n2) →
      ∃ dups nm, (inputIntegrityS r).2 = .error (.nameError dups nm) ∧
        dups ≠ [] ∧ ∃ lpre npub lpost, r.nodes = lpre ++ npub :: lpost ∧
          nm = npub.name ∧ ∀ d ∈ dups, d ∈ outputVals npub ∧
            ∃ nprev ∈ lpre, d ∈ outputVals nprev) ∧
    (∀ r : Recipe,
      r.nodes.Pairwise (fun a b => ∀ o ∈ outputVals a, o ∉ outputVals b) →
      isSingleComponent r.graph = true →
      (inputIntegrityS r).2 = .ok (none, none)) := by
  constructor
  · intro r ⟨l1, n1, l2, n2, l3, o, hsplit, ho1, ho2⟩
    have hhyp : ∃ l2b n2b l3b ob, r.nodes = l2b ++ n2b :: l3b ∧
        ob ∈ outputVals n2b ∧ (ob ∈ ([] : List String) ∨
          ∃ nn ∈ l2b, ob ∈ outputVals nn) := by
      refine ⟨l1 ++ n1 :: l2, n2, l3, o, ?_, ho2,
        Or.inr ⟨n1, ?_, ho1⟩⟩
      · rw [hsplit, List.append_assoc]
      · exact List.mem_append_right l1 (List.mem_cons_self n1 l2)
    obtain ⟨dups, nm, herr, hne, lpre, npub, lpost, hsp2, hnm, hprop⟩ :=
      integrityLoop_finds_dup r r.nodes [] hhyp
    refine ⟨dups, nm, ?_, hne, lpre, npub, lpost, hsp2, hnm, ?_⟩
    · unfold inputIntegrityS
      rcases hres : integrityLoop r [] r.nodes with ⟨r1, res⟩
      have herr2 : res = .error (.nameError dups nm) := by
        have hh := herr
        rw [hres] at hh
        exact hh
      subst herr2
      rfl
    · intro d hd
      obtain ⟨hd1, hd2⟩ := hprop d hd
      rcases hd2 with hdseen | hdprev
      · exact absurd hdseen (List.not_mem_nil d)
      · exact ⟨hd1, hdprev⟩
  · intro r hpw hcomp
    obtain ⟨s2, hok⟩ := integrityLoop_all_fresh r r.nodes [] hpw
      (fun n _ o _ hmem => absurd hmem (List.not_mem_nil o))
    unfold inputIntegrityS
    rcases hres : integrityLoop r [] r.nodes with ⟨r1, res⟩
    have hok2 : res = .ok s2 := by
      have hh := hok
      rw [hres] at hh
      exact hh
    have hr1 : r1 = r := by
      have hh := integrityLoop_fst r r.nodes []
      rw [hres] at hh
      exact hh
    subst hok2
    rw [hr1]
    show (if isSingleComponent r.graph = true then
        (r, Except.ok ((none : Option Unit), (none : Option Unit)))
      else (r, Except.error IntegrityErr.importError)).2 = _
    rw [if_pos hcomp]

/-- Duplicate-output recipe of the C6 witness: steps `A` and `B` both
publish `x`. -/
def rC6dup : Recipe :=
  ⟨[⟨"A", [], [("a", "x")], "source.py", "python"⟩,
    ⟨"B", [], [("b", "x")], "source.py", "python"⟩], ⟨[], []⟩⟩

/-- Clean one-step recipe of the C6 witness. -/
def rC6ok : Recipe :=
  ⟨[⟨"C", [("c", "flavour.c")], [("out", "y")], "c.py", "python"⟩],
   ⟨["C", "item.flavour.c", "item.y"],
    [("item.flavour.c", "C"), ("C", "item.y")]⟩⟩

/-- Witness for C6: both halves applied at concrete recipes. -/
theorem inputIntegrity_duplicate_outputs_witness :
    ((∃ l1 n1 l2 n2 l3 o, rC6dup.nodes = l1 ++ n1 :: l2 ++ n2 :: l3 ∧
        o ∈ outputVals n1 ∧ o ∈ outputVals n2) ∧
      ∃ dups nm, (inputIntegrityS rC6dup).2 = .error (.nameError dups nm) ∧
        dups ≠ [] ∧ ∃ lpre npub lpost, rC6dup.nodes = lpre ++ npub :: lpost ∧
          nm = npub.name ∧ ∀ d ∈ dups, d ∈ outputVals npub ∧
            ∃ nprev ∈ lpre, d ∈ outputVals nprev) ∧
    (rC6ok.nodes.Pairwise (fun a b => ∀ o ∈ outputVals a, o ∉ outputVals b) ∧
      isSingleComponent rC6ok.graph = true ∧
      (inputIntegrityS rC6ok).2 = .ok (none, none)) := by
  have hdup : ∃ l1 n1 l2 n2 l3 o, rC6dup.nodes = l1 ++ n1 :: l2 ++ n2 :: l3 ∧
      o ∈ outputVals n1 ∧ o ∈ outputVals n2 :=
    ⟨[], ⟨"A", [], [("a", "x")], "source.py", "python"⟩, [],
      ⟨"B", [], [("b", "x")], "source.py", "python"⟩, [], "x",
      rfl, by decide, by decide⟩
  have hpw : rC6ok.nodes.Pairwise
      (fun a b => ∀ o ∈ outputVals a, o ∉ outputVals b) := by
    simp [rC6ok]
  have hcomp : isSingleComponent rC6ok.graph = true := by decide
  exact ⟨⟨hdup, inputIntegrity_duplicate_outputs.1 rC6dup hdup⟩,
    hpw, hcomp, inputIntegrity_duplicate_outputs.2 rC6ok hpw hcomp⟩

/-- Fuel-bounded directed reachability, the search underlying the graph
library's `has_cycles()`. -/
def reachDir (g : DiGraph) : Nat → String → String → Bool
  | 0, v, w => v == w
  | fuel + 1, v, w =>
      v == w || (nodesFrom g v).any (fun u => reachDir g fuel u w)

/-- Embeds `Graph.has_cycles()`: some node lies on a directed cycle. -/
def hasCycleB (g : DiGraph) : Bool :=
  g.nodes.any (fun v =>
    (nodesFrom g v).any (fun x => reachDir g g.nodes.length x v))

theorem reachDir_refl (g : DiGraph) (fuel : Nat) (v : String) :
    reachDir g fuel v v = true := by
  cases fuel with
  | zero => simp [reachDir]
  | succ f => simp [reachDir]

theorem walk_reachDir {g : DiGraph} {a b : String} {l : List String}
    (hw : Walk g a b l) :
    ∀ fuel : Nat, l.length ≤ fuel + 1 → reachDir g fuel a b = true := by
  induction hw with
  | nil v hv => intro fuel _; exact reachDir_refl g fuel v
  | @cons u x w l0 hu he hw0 ih =>
      intro fuel hle
      cases fuel with
      | zero =>
          exfalso
          have hp := walk_length_pos hw0
          simp only [List.length_cons] at hle
          omega
      | succ f =>
          have hx : x ∈ nodesFrom g u :=
            List.mem_filter.mpr ⟨walk_start_mem hw0, decide_eq_true he⟩
          have hr : reachDir g f x w = true := by
            refine ih f ?_
            simp only [List.length_cons] at hle
            omega
          unfold reachDir
          rw [Bool.or_eq_true]
          exact Or.inr (List.any_eq_true.mpr ⟨x, hx, hr⟩)

theorem walk_suffix_of_mem {g : DiGraph} {a b : String} {l : List String}
    (h : Walk g a b l) :
    ∀ (l1 : List String) (x : String) (l2 : List String),
      l = l1 ++ x :: l2 → Walk g x b (x :: l2) := by
  induction h with
  | nil v hv =>
      intro l1 x l2 heq
      cases l1 with
      | nil =>
          simp only [List.nil_append, List.cons.injEq] at heq
          obtain ⟨rfl, hl2⟩ := heq
          rw [← hl2]
          exact Walk.nil v hv
      | cons c t =>
          exfalso
          simp only [List.cons_append, List.cons.injEq] at heq
          exact absurd heq.2.symm (List.append_ne_nil_of_right_ne_nil t (by simp))
  | @cons u x0 w l0 hu he hw ih =>
      intro l1 x l2 heq
      cases l1 with
      | nil =>
          simp only [List.nil_append, List.cons.injEq] at heq
          obtain ⟨rfl, hl2⟩ := heq
          rw [← hl2]
          exact Walk.cons hu he hw
      | cons c t =>
          simp only [List.cons_append, List.cons.injEq] at heq
          exact ih t x l2 heq.2

theorem walk_shorten {g : DiGraph} {a b : String} {l : List String}
    (h : Walk g a b l) : ∃ l2, Walk g a b l2 ∧ l2.Nodup := by
  induction h with
  | nil v hv => exact ⟨[v], Walk.nil v hv, by simp⟩
  | @cons u x w l0 hu he hw ih =>
      obtain ⟨l2, hw2, hnd⟩ := ih
      by_cases hu2 : u ∈ l2
      · obtain ⟨s, t, hst⟩ := List.append_of_mem hu2
        refine ⟨u :: t, walk_suffix_of_mem hw2 s u t hst, ?_⟩
        have : (u :: t).Sublist l2 := by
          rw [hst]
          exact List.sublist_append_right s (u :: t)
        exact this.nodup hnd
      · exact ⟨u :: l2, Walk.cons hu he hw2, List.nodup_cons.mpr ⟨hu2, hnd⟩⟩

theorem hasCycleB_of_not_acyclic {g : DiGraph} (hwf : Wellformed g)
    (h : ¬ Acyclic g) : hasCycleB g = true := by
  unfold Acyclic at h
  push_neg at h
  obtain ⟨v, x, l, he, hw, -⟩ := h
  obtain ⟨l2, hw2, hnd⟩ := walk_shorten hw
  have hbound : l2.length ≤ g.nodes.length :=
    List.Subperm.length_le (hnd.subperm (walk_subset hw2))
  have hvmem : v ∈ g.nodes := (hwf _ he).1
  have hxfrom : x ∈ nodesFrom g v :=
    List.mem_filter.mpr ⟨walk_start_mem hw2, decide_eq_true he⟩
  have hreach : reachDir g g.nodes.length x v = true :=
    walk_reachDir hw2 g.nodes.length (by omega)
  unfold hasCycleB
  exact List.any_eq_true.mpr ⟨v, hvmem,
    List.any_eq_true.mpr ⟨x, hxfrom, hreach⟩⟩

/-- The empty graph a fresh `Recipe([])` starts from. -/
def emptyGraph : DiGraph := ⟨[], []⟩

/-- Embeds the body of the loop in `Recipe.makeGraph`: add the step node,
then an `item.<ref>` node and an `item → step` edge for every input, and a
`step → item` edge for every output. -/
def makeGraphStep (g : DiGraph) (n : Node) : DiGraph :=
  let g1 := addNodeIfAbsent g n.name
  let g2 := n.inputs.foldl
    (fun h inp => addEdge (addNodeIfAbsent h ("item." ++ inp.2))
      ("item." ++ inp.2) n.name) g1
  n.outputs.foldl
    (fun h outp => addEdge (addNodeIfAbsent h ("item." ++ outp.2))
      n.name ("item." ++ outp.2)) g2

/-- Embeds `Recipe.makeGraph` over the node list. -/
def makeGraph (nodes : List Node) (g : DiGraph) : DiGraph :=
  nodes.foldl makeGraphStep g

/-- Errors raised by `readRecipe`. -/
inductive RecipeErr where
  | cycleError
  | integrity (e : IntegrityErr)
deriving DecidableEq

/-- Embeds `readRecipe`: build the recipe from the parsed data
(`dictToRecipe` appends the nodes to a fresh `Recipe([])` with an empty
graph), rebuild the graph, raise the cycle error if `has_cycles()`, then
run `inputIntegrity()` and return the recipe. -/
def readRecipe (data : List Node) : Except RecipeErr Recipe :=
  let g := makeGraph data emptyGraph
  if hasCycleB g then .error .cycleError
  else
    match (inputIntegrityS (Recipe.mk data g)).2 with
    | .error e => .error (.integrity e)
    | .ok _ => .ok (Recipe.mk data g)

theorem addNodeIfAbsent_mem_nodes (g : DiGraph) (v w : String) :
    w ∈ (addNodeIfAbsent g v).nodes ↔ w ∈ g.nodes ∨ w = v := by
  unfold addNodeIfAbsent
  by_cases hv : v ∈ g.nodes
  · rw [if_pos hv]
    constructor
    · exact Or.inl
    · rintro (hw | rfl)
      · exact hw
      · exact hv
  · rw [if_neg hv]
    simp

theorem addNodeIfAbsent_wf {g : DiGraph} (h : Wellformed g) (v : String) :
    Wellformed (addNodeIfAbsent g v) := by
  intro e he
  rw [addNodeIfAbsent_edges] at he
  obtain ⟨h1, h2⟩ := h e he
  exact ⟨(addNodeIfAbsent_mem_nodes g v e.1).mpr (Or.inl h1),
    (addNodeIfAbsent_mem_nodes g v e.2).mpr (Or.inl h2)⟩

theorem addEdge_mem_nodes (g : DiGraph) (x y w : String) :
    w ∈ (addEdge g x y).nodes ↔ w ∈ g.nodes ∨ w = x ∨ w = y := by
  unfold addEdge
  rw [appendEdge_nodes, addNodeIfAbsent_mem_nodes, addNodeIfAbsent_mem_nodes]
  tauto

theorem addEdge_wf {g : DiGraph} (h : Wellformed g) (x y : String) :
    Wellformed (addEdge g x y) := by
  intro e he
  have hmem := (addEdge_mem_edges g x y e.1 e.2).mp (by
    rw [show (e.1, e.2) = e from rfl]
    exact he)
  rcases hmem with hold | ⟨hx, hy⟩
  · obtain ⟨h1, h2⟩ := h e hold
    exact ⟨(addEdge_mem_nodes g x y e.1).mpr (Or.inl h1),
      (addEdge_mem_nodes g x y e.2).mpr (Or.inl h2)⟩
  · exact ⟨(addEdge_mem_nodes g x y e.1).mpr (Or.inr (Or.inl hx)),
      (addEdge_mem_nodes g x y e.2).mpr (Or.inr (Or.inr hy))⟩

theorem foldl_wf_pres {β : Type} (f : DiGraph → β → DiGraph)
    (hf : ∀ g b, Wellformed g → Wellformed (f g b)) :
    ∀ (l : List β) (g : DiGraph), Wellformed g → Wellformed (l.foldl f g) := by
  intro l
  induction l with
  | nil => intro g hg; exact hg
  | cons b r ih => intro g hg; exact ih (f g b) (hf g b hg)

theorem makeGraphStep_wf {g : DiGraph} (h : Wellformed g) (n : Node) :
    Wellformed (makeGraphStep g n) := by
  unfold makeGraphStep
  refine foldl_wf_pres _ ?_ n.outputs _ (foldl_wf_pres _ ?_ n.inputs _
    (addNodeIfAbsent_wf h n.name))
  · intro g2 outp hg2
    exact addEdge_wf (addNodeIfAbsent_wf hg2 _) _ _
  · intro g2 inp hg2
    exact addEdge_wf (addNodeIfAbsent_wf hg2 _) _ _

theorem makeGraph_wf (data : List Node) :
    Wellformed (makeGraph data emptyGraph) := by
  refine foldl_wf_pres _ ?_ data emptyGraph ?_
  · intro g n hg
    exact makeGraphStep_wf hg n
  · intro e he
    exact absurd he (List.not_mem_nil e)

/-- Claim C7: a recipe description whose graph contains a cycle makes
`readRecipe` fail with the cycle error — before `inputIntegrity` is ever
consulted (the result is the cycle error whatever the node list's output
structure is) — so no Recipe, and hence no Plan, is ever produced from it. -/
theorem readRecipe_cycle_first (data : List Node)
    (h : ¬ Acyclic (makeGraph data emptyGraph)) :
    readRecipe data = .error .cycleError := by
  have hc : hasCycleB (makeGraph data emptyGraph) = true :=
    hasCycleB_of_not_acyclic (makeGraph_wf data) h
  unfold readRecipe
  rw [if_pos hc]

/-- Cyclic recipe data of the C7 witness: `A` consumes `x` and publishes
`y`, `B` consumes `y` and publishes `x`. -/
def dataC7 : List Node :=
  [⟨"A", [("in1", "x")], [("out", "y")], "a.py", "python"⟩,
   ⟨"B", [("in1", "y")], [("out", "x")], "b.py", "python"⟩]

/-- Witness for C7: the concrete cyclic recipe is rejected with the cycle
error. -/
theorem readRecipe_cycle_first_witness :
    ¬ Acyclic (makeGraph dataC7 emptyGraph) ∧
      readRecipe dataC7 = .error .cycleError := by
  have hnot : ¬ Acyclic (makeGraph dataC7 emptyGraph) := by
    intro hac
    exact hac "A" "item.y" ["item.y", "B", "item.x", "A"] (by decide)
      (Walk.cons (by decide) (by decide)
        (Walk.cons (by decide) (by decide)
          (Walk.cons (by decide) (by decide)
            (Walk.nil "A" (by decide)))))
  exact ⟨hnot, readRecipe_cycle_first dataC7 hnot⟩

/-- A scheduled job: its step name, whether `prepareWorkers` attached a
worker thread to it, and whether that thread was ever started
(dispatched). -/
structure SchedJob where
  name : String
  hasWorker : Bool
  dispatched : Bool
deriving DecidableEq

/-- Scheduler state: the status string written by `Scheduler.__update` and
the leveled joblist (index 0 = priority level 0). -/
structure SchedState where
  status : String
  joblist : List (List SchedJob)
deriving DecidableEq

/-- Jobs that have ever been dispatched (their worker thread started). -/
def dispatchedJobs (s : SchedState) : List SchedJob :=
  s.joblist.foldr
    (fun lvl acc => lvl.filter (fun j => j.dispatched) ++ acc) []

/-- Embeds `Scheduler.prepareWorkers`: sets the status and appends one
`threading.Thread(target=Worker(job))` to every job of every level; no
thread is ever started. -/
def prepareWorkers (s : SchedState) : SchedState :=
  { status := "preparing Workers",
    joblist := s.joblist.map
      (fun lvl => lvl.map (fun j => { j with hasWorker := true })) }

/-- Embeds `Scheduler.__init__` on a plan's joblist: status
`"initializing"`, `completeJoblist` (which swaps each job's payload
container for the stored shelf item, leaving the scheduling-relevant
fields untouched), `prepareWorkers`, then status `"ready"`. -/
def schedulerInit (jl : List (List SchedJob)) : SchedState :=
  { prepareWorkers { status := "initializing", joblist := jl } with
      status := "ready" }

/-- Embeds `Scheduler.doWork`: the entire body is
`self.__update("working")`. -/
def doWork (s : SchedState) : SchedState := { s with status := "working" }

/-- Two-level joblist of the C8 counterexample: job `D` at level 0, job
`C` at the highest level 1. -/
def jlC8 : List (List SchedJob) :=
  [[⟨"D", false, false⟩], [⟨"C", false, false⟩]]

/-- Counterexample to C8 as stated: running the scheduler
(`doWork` after construction) on a two-level joblist moves the status to
`"working"` but dispatches no job at all — in particular the job of the
highest level is not dispatched (first or ever), and no job reaches a
terminal state before level 0 would be released. -/
theorem doWork_dispatch_counterexample :
    (doWork (schedulerInit jlC8)).status = "working" ∧
    dispatchedJobs (doWork (schedulerInit jlC8)) = [] ∧
    ∃ lvl, (doWork (schedulerInit jlC8)).joblist.getLast? = some lvl ∧
      ∃ j ∈ lvl, j.dispatched = false := by
  refine ⟨rfl, rfl, [⟨"C", true, false⟩], rfl, ⟨"C", true, false⟩, ?_, rfl⟩
  decide

/-- Claim C8 (amended): `doWork()` only transitions the Scheduler to the
`"working"` state; it dispatches nothing — `prepareWorkers` attaches one
unstarted worker per job, and if no job of the plan's joblist was
dispatched before `run`, none is dispatched after it, at any level. -/
theorem doWork_sets_status_only :
    (∀ s : SchedState, doWork s = { s with status := "working" }) ∧
    (∀ jl : List (List SchedJob),
      (∀ lvl ∈ jl, ∀ j ∈ lvl, j.dispatched = false) →
      dispatchedJobs (doWork (schedulerInit jl)) = []) := by
  constructor
  · intro s
    rfl
  · intro jl
    simp only [dispatchedJobs, doWork, schedulerInit, prepareWorkers]
    induction jl with
    | nil => intro _; rfl
    | cons lvl rest ih =>
        intro hall
        simp only [List.map_cons, List.foldr_cons]
        rw [ih (fun l hl => hall l (List.mem_cons_of_mem lvl hl))]
        rw [List.append_nil, List.filter_eq_nil_iff]
        intro j hj
        obtain ⟨j0, hj0, rfl⟩ := List.mem_map.mp hj
        have hd := hall lvl (List.mem_cons_self lvl rest) j0 hj0
        simp [hd]

/-- Witness for C8's amended statement: applied to the concrete two-level
joblist, whose jobs all start undispatched. -/
theorem doWork_sets_status_only_witness :
    (∀ lvl ∈ jlC8, ∀ j ∈ lvl, j.dispatched = false) ∧
      dispatchedJobs (doWork (schedulerInit jlC8)) = [] := by
  have hall : ∀ lvl ∈ jlC8, ∀ j ∈ lvl, j.dispatched = false := by decide
  exact ⟨hall, doWork_sets_status_only.2 jlC8 hall⟩

/-- Result of Python-binding the surviving `JSONContainer.__init__`
signature `(self, filename)` against a call's positional and keyword
arguments: exactly one positional, or exactly the keyword `filename`,
binds; everything else raises `TypeError`.  The second `def __init__`
in the class body replaces the first no-argument one, so this is the only
constructor signature. -/
def bindJSONContainerInit {α : Type} (args : List α)
    (kwargs : List (String × α)) : Except PyErr α :=
  match args, kwargs with
  | [a], [] => .ok a
  | [], [(k, v)] => if k = "filename" then .ok v else .error .typeError
  | _, _ => .error .typeError

/-- Embeds a constructed `JSONContainer`: the loaded data and the
read-only flag set by the file-loading `__init__`. -/
structure JSONContainerM where
  data : List (String × Val)
  read_only : Bool
deriving DecidableEq

/-- Embeds `JSONContainer(...)`: bind the arguments against the effective
`__init__(self, filename)`, then load the file (`fs` is the filesystem;
`none` models `FileNotFoundError`). -/
def jsonContainerNew {α : Type} (fs : α → Option (List (String × Val)))
    (args : List α) (kwargs : List (String × α)) :
    Except PyErr JSONContainerM :=
  match bindJSONContainerInit args kwargs with
  | .error e => .error e
  | .ok filename =>
      match fs filename with
      | some d => .ok { data := d, read_only := true }
      | none => .error .valueError

/-- Embeds the prefix of `Plan.__init__` (recipe.py lines 62-66): after
the four local-attribute assignments, `self.variants = JSONContainer()` is
the first fallible statement; when it raises, `__init__` aborts, so the
remaining statements are unreachable and the constructor's outcome is the
outcome of this call. -/
def planInitUpToVariants {α : Type}
    (fs : α → Option (List (String × Val))) : Except PyErr JSONContainerM :=
  jsonContainerNew fs ([] : List α) []

/-- Embeds the `JSONContainer(data={...})` call in `Plan.makeJob`
(recipe.py lines 171-180). -/
def makeJobContainer {α : Type} (fs : α → Option (List (String × Val)))
    (payload : α) : Except PyErr JSONContainerM :=
  jsonContainerNew fs [] [("data", payload)]

/-- Claim C10: the second `JSONContainer.__init__` (requiring `filename`)
replaces the first no-argument definition, so `JSONContainer()` and
`JSONContainer(data=...)` — the calls made by `Plan.__init__` and
`Plan.makeJob` — raise `TypeError` for every filesystem and payload;
consequently `Plan.__init__` always raises at `self.variants =
JSONContainer()` and Plan construction never completes normally. -/
theorem jsonContainer_double_init_typeError :
    (∀ (α : Type) (fs : α → Option (List (String × Val))),
      jsonContainerNew fs [] [] = .error .typeError) ∧
    (∀ (α : Type) (fs : α → Option (List (String × Val))) (payload : α),
      jsonContainerNew fs [] [("data", payload)] = .error .typeError) ∧
    (∀ (α : Type) (fs : α → Option (List (String × Val))),
      planInitUpToVariants fs = .error .typeError) ∧
    (∀ (α : Type) (fs : α → Option (List (String × Val))) (payload : α),
      makeJobContainer fs payload = .error .typeError) := by
  refine ⟨fun α fs => rfl, fun α fs payload => rfl, fun α fs => rfl,
    fun α fs payload => rfl⟩

end Chefkoch
